import Mathlib

/-!
Verification of the transform-pipeline engine of `src/src/App.jsx`.

Texts are modelled as `List Char` (sequences of Unicode scalar values);
step parameter records mirror the step objects of the source.  JavaScript
numbers that reach the validators are modelled as `Option Int`, where
`none` stands for a non-numeric value (`Number(value)` being `NaN`).
-/

namespace Sezor

/-- Models `c.toLowerCase().charCodeAt(0)` as the ciphers use it.
JavaScript `toLowerCase` is the full Unicode mapping; the callers only
compare the result against the ASCII range `[97,122]` and use the value
when it is in that range.  The only code points outside `a`–`z` whose
lowercase first code unit lands in that range are `A`–`Z`, U+212A (KELVIN
SIGN, lowercases to `k`) and U+0130 (LATIN CAPITAL I WITH DOT ABOVE,
lowercases to `i` followed by a combining dot; `charCodeAt(0)` sees `i`).
For every other character the value is only tested to be out of range, so
returning `c.toNat` there is observationally faithful. -/
def jsLowerCode (c : Char) : Nat :=
  if 65 ≤ c.toNat ∧ c.toNat ≤ 90 then c.toNat + 32
  else if c.toNat = 8490 then 107
  else if c.toNat = 304 then 105
  else c.toNat

/-- Models `const shiftLetter = (char, shift, preserveCase = true) => ...`.
The `shift` argument is a `Nat`: every call site of the source passes a
value already normalised into `[0,25]` (or the literal `13`).
`shifted.toUpperCase()` on an ASCII lowercase letter is the code point
minus 32, and `char >= "A" && char <= "Z"` is the code-unit comparison. -/
def shiftLetter (c : Char) (shift : Nat) (preserveCase : Bool) : Char :=
  let code := jsLowerCode c
  if code < 97 ∨ 122 < code then c
  else
    let shifted := Char.ofNat ((code - 97 + shift) % 26 + 97)
    if preserveCase = false then shifted
    else if 65 ≤ c.toNat ∧ c.toNat ≤ 90 then Char.ofNat (shifted.toNat - 32)
    else shifted

/-- Models `caesarCipher` (`split("")`, `map`, `join("")` is `List.map`). -/
def caesarCipher (text : List Char) (shift : Nat) (preserveCase : Bool) : List Char :=
  text.map (fun c => shiftLetter c shift preserveCase)

/-- Models `reverseText`. -/
def reverseText (text : List Char) : List Char :=
  text.reverse

/-- Models `clampShift`: `Number(value)` is an `Option Int` (`none` for
`NaN`); `Math.min(MAX_SHIFT, Math.max(0, n))` with `MAX_SHIFT = 100`. -/
def clampShift (value : Option Int) : Int :=
  match value with
  | none => 0
  | some n => min 100 (max 0 n)

/-- Models `clampRails`: `NaN` yields `3`; otherwise
`Math.min(MAX_RAILS, Math.max(MIN_RAILS, n))` with bounds `2` and `10`. -/
def clampRails (value : Option Int) : Int :=
  match value with
  | none => 3
  | some n => min 10 (max 2 n)

/-- The ASCII fragment of the single-character case folding performed by a
case-insensitive (`i` flag) regular-expression match in JavaScript. -/
def foldCaseChar (c : Char) : Char :=
  if 65 ≤ c.toNat ∧ c.toNat ≤ 90 then Char.ofNat (c.toNat + 32) else c

/-- Two characters match under the pattern built by `replaceText`:
literally when `matchCase` is set (`"g"` flags), up to case folding
otherwise (`"gi"` flags). -/
def charMatches (matchCase : Bool) (a b : Char) : Bool :=
  if matchCase then a = b else foldCaseChar a = foldCaseChar b

/-- The pattern `escapeRegex fromText` matches at the head of `t` exactly
when `fromText` is a (possibly case-folded) prefix of `t`; `escapeRegex`
escapes every regular-expression metacharacter, so the pattern matches the
literal text. -/
def literalMatch (matchCase : Bool) : List Char → List Char → Bool
  | [], _ => true
  | _ :: _, [] => false
  | a :: as, b :: bs => charMatches matchCase a b && literalMatch matchCase as bs

/-- Models the replacement-string expansion of `String.prototype.replace`
(ECMAScript `GetSubstitution`): `$$` is a dollar sign, `$&` the matched
substring, `` $` `` the part before the match, `$'` the part after it.
The pattern has no capture groups, so `$1`…`$9` and `$<` stay literal. -/
def expandRepl : List Char → List Char → List Char → List Char → List Char
  | [], _, _, _ => []
  | c :: rest, pre, m, post =>
    if c = Char.ofNat 36 then
      match rest with
      | [] => [c]
      | d :: rest2 =>
        if d = Char.ofNat 36 then Char.ofNat 36 :: expandRepl rest2 pre m post
        else if d = Char.ofNat 38 then m ++ expandRepl rest2 pre m post
        else if d = Char.ofNat 96 then pre ++ expandRepl rest2 pre m post
        else if d = Char.ofNat 39 then post ++ expandRepl rest2 pre m post
        else c :: d :: expandRepl rest2 pre m post
    else c :: expandRepl rest pre m post

/-- Global (`g` flag) replacement: scan left to right, replace each
leftmost non-overlapping occurrence of `fromText`, continue after it.
`done` is the already-scanned prefix of the original string (needed by
the replacement expansion); `repl` receives the text before the match,
the matched substring and the text after it. -/
def replaceGo (matchCase : Bool) (fromText : List Char)
    (repl : List Char → List Char → List Char → List Char) :
    List Char → List Char → List Char
  | _, [] => []
  | done, c :: rest =>
    if h : fromText ≠ [] ∧ literalMatch matchCase fromText (c :: rest) = true then
      repl done ((c :: rest).take fromText.length) ((c :: rest).drop fromText.length) ++
        replaceGo matchCase fromText repl (done ++ (c :: rest).take fromText.length)
          ((c :: rest).drop fromText.length)
    else
      c :: replaceGo matchCase fromText repl (done ++ [c]) rest
  termination_by _ l => l.length
  decreasing_by
  · simp only [List.length_drop]
    have : fromText.length ≠ 0 := fun hn => h.1 (List.eq_nil_of_length_eq_zero hn)
    simp only [List.length_cons]
    omega
  · simp

/-- Models `replaceText`: `if (!fromText) return text;` then a global
replace of `new RegExp(escapeRegex(fromText), matchCase ? "g" : "gi")`
by `toText ?? ""`.  The escaped pattern matches the literal `fromText`,
which `literalMatch` expresses; the replacement string undergoes the
JavaScript `$`-expansion of `expandRepl`. -/
def replaceText (text fromText : List Char) (toText : Option (List Char))
    (matchCase : Bool) : List Char :=
  if fromText = [] then text
  else
    replaceGo matchCase fromText
      (fun pre m post => expandRepl (toText.getD []) pre m post) [] text

/-- The ASCII fragment of `c.toUpperCase()` (single character). -/
def asciiUpperChar (c : Char) : Char :=
  if 97 ≤ c.toNat ∧ c.toNat ≤ 122 then Char.ofNat (c.toNat - 32) else c

/-- The ASCII fragment of `c.toLowerCase()` (single character). -/
def asciiLowerChar (c : Char) : Char :=
  if 65 ≤ c.toNat ∧ c.toNat ≤ 90 then Char.ofNat (c.toNat + 32) else c

/-- The characters of the `\w` class of JavaScript regular expressions:
ASCII letters, ASCII digits and the underscore. -/
def isWordCharJs (c : Char) : Bool :=
  (48 ≤ c.toNat && c.toNat ≤ 57) || (65 ≤ c.toNat && c.toNat ≤ 90) ||
    (97 ≤ c.toNat && c.toNat ≤ 122) || c.toNat == 95

/-- Models `toTitleCase` (`/\b(\p{L})(\p{L}*)/gu` replaced by upper first,
lower rest) on the ASCII fragment of the Unicode letter class:
`prevWord` is the `\w`-ness of the previously scanned character.  After a
word boundary an alphabetic run is capitalised and its remainder
lower-cased. -/
def titleGo (prevWord : Bool) : List Char → List Char
  | [] => []
  | c :: rest =>
    if prevWord = false ∧ c.isAlpha then
      asciiUpperChar c :: ((rest.takeWhile Char.isAlpha).map asciiLowerChar
        ++ titleGo true (rest.dropWhile Char.isAlpha))
    else c :: titleGo (isWordCharJs c) rest
  termination_by l => l.length
  decreasing_by
  · simp only [List.length_cons]
    exact Nat.lt_succ_of_le (List.dropWhile_sublist _).length_le
  · simp

/-- Models `toTitleCase`. -/
def toTitleCase (text : List Char) : List Char :=
  titleGo false text

/-- Models `toggleCase`: swap the case of every cased character (ASCII
fragment of the Unicode case mappings used by the source). -/
def toggleCase (text : List Char) : List Char :=
  text.map (fun c =>
    let lower := asciiLowerChar c
    let upper := asciiUpperChar c
    if lower = upper then c
    else if c = lower then upper else lower)

/-- Models `transformCase` (a `switch` on `caseMode`). -/
def transformCase (text : List Char) (caseMode : String) : List Char :=
  if caseMode = "upper" then text.map asciiUpperChar
  else if caseMode = "lower" then text.map asciiLowerChar
  else if caseMode = "title" then toTitleCase text
  else if caseMode = "toggle" then toggleCase text
  else text

/-- The whitespace class `\s` of JavaScript regular expressions (also the
set stripped by `String.prototype.trim`). -/
def isJsWs (c : Char) : Bool :=
  (9 ≤ c.toNat && c.toNat ≤ 13) || c.toNat == 32 || c.toNat == 160 ||
    c.toNat == 5760 || (8192 ≤ c.toNat && c.toNat ≤ 8202) ||
    c.toNat == 8232 || c.toNat == 8233 || c.toNat == 8239 ||
    c.toNat == 8287 || c.toNat == 12288 || c.toNat == 65279

/-- Models `Array.prototype.join(" ")`: the pieces with a single space
between each adjacent pair. -/
def joinSp : List (List Char) → List Char
  | [] => []
  | [p] => p
  | p :: ps => p ++ ' ' :: joinSp ps

/-- Models the global replacement of `/\s{2,}/g` by a single space: every
maximal whitespace run of length at least two becomes one space, a run of
length one is kept as it is. -/
def collapseWs : List Char → List Char
  | [] => []
  | c :: rest =>
    if isJsWs c then
      (if rest.takeWhile isJsWs = [] then [c] else [' ']) ++
        collapseWs (rest.dropWhile isJsWs)
    else c :: collapseWs rest
  termination_by l => l.length
  decreasing_by
  · simp only [List.length_cons]
    exact Nat.lt_succ_of_le (List.dropWhile_sublist _).length_le
  · simp

/-- Models `String.prototype.trim`. -/
def jsTrim (l : List Char) : List Char :=
  ((l.dropWhile isJsWs).reverse.dropWhile isJsWs).reverse

/-- Decimal rendering of a 1-based alphabet position (`String(code - 96)`;
the values produced by the encoder never exceed 26). -/
def decimalOf (n : Nat) : List Char :=
  if n < 10 then [Char.ofNat (48 + n)]
  else [Char.ofNat (48 + n / 10), Char.ofNat (48 + n % 10)]

/-- The per-character mapping of `a1z26Encode`: a letter becomes its
alphabet position in decimal, any other character passes through. -/
def a1z26Piece (c : Char) : List Char :=
  let code := jsLowerCode c
  if code < 97 ∨ 122 < code then [c] else decimalOf (code - 96)

/-- Models `a1z26Encode`: map each character, `join(" ")`, collapse
whitespace runs (`/\s{2,}/g` to one space) and `trim`. -/
def a1z26Encode (text : List Char) : List Char :=
  jsTrim (collapseWs (joinSp (text.map a1z26Piece)))

/-- There is a word boundary (`\b`) between the final character of a
matched token (a digit) and what follows. -/
def boundaryAfter : List Char → Bool
  | [] => true
  | d :: _ => !isWordCharJs d

/-- Models the global replace of `/\b([1-9]|1[0-9]|2[0-6])\b/g` in
`a1z26Decode`.  `prevWord` is the `\w`-ness of the previous character
(`false` at the start of the string); since every token character is a
digit, the leading `\b` holds exactly when `prevWord` is false.  The
alternatives are tried in the order of the pattern. -/
def a1z26DecodeGo (prevWord : Bool) : List Char → List Char
  | [] => []
  | c :: rest =>
    if prevWord = false ∧ 49 ≤ c.toNat ∧ c.toNat ≤ 57 ∧ boundaryAfter rest then
      Char.ofNat (96 + (c.toNat - 48)) :: a1z26DecodeGo true rest
    else
      match rest with
      | [] => [c]
      | d :: rest2 =>
        if prevWord = false ∧ c.toNat = 49 ∧ 48 ≤ d.toNat ∧ d.toNat ≤ 57 ∧
            boundaryAfter rest2 then
          Char.ofNat (96 + (10 + (d.toNat - 48))) :: a1z26DecodeGo true rest2
        else if prevWord = false ∧ c.toNat = 50 ∧ 48 ≤ d.toNat ∧ d.toNat ≤ 54 ∧
            boundaryAfter rest2 then
          Char.ofNat (96 + (20 + (d.toNat - 48))) :: a1z26DecodeGo true rest2
        else c :: a1z26DecodeGo (isWordCharJs c) (d :: rest2)

/-- Models `a1z26Decode`: every word-boundary-delimited decimal token with
value 1 to 26 becomes the letter with code `96 + value`. -/
def a1z26Decode (text : List Char) : List Char :=
  a1z26DecodeGo false text

/-- Models `getVigenereKey`: lower-case the key, strip everything outside
`a`–`z`, map the remaining letters to `code - 97`.  A character survives
the strip exactly when its lowercase form is an ASCII lowercase letter,
which `jsLowerCode` decides (U+0130 lowercases to `i` followed by a
combining dot; the dot is stripped, so the mapping per character is
faithful). -/
def getVigenereKey (key : List Char) : List Nat :=
  key.filterMap (fun c =>
    let n := jsLowerCode c
    if 97 ≤ n ∧ n ≤ 122 then some (n - 97) else none)

/-- The character walk of `vigenereCipher`: non-letters pass through
without consuming a key position, letters consume the next key offset
(cycling) and are shifted by it (encoding) or by its complement mod 26
(decoding). -/
def vigenereGo (keyOffsets : List Nat) (mode : String) (preserveCase : Bool) :
    Nat → List Char → List Char
  | _, [] => []
  | keyIndex, c :: rest =>
    let code := jsLowerCode c
    if code < 97 ∨ 122 < code then
      c :: vigenereGo keyOffsets mode preserveCase keyIndex rest
    else
      let offset := keyOffsets.getD (keyIndex % keyOffsets.length) 0
      let shift := if mode = "decode" then (26 - offset) % 26 else offset
      shiftLetter c shift preserveCase ::
        vigenereGo keyOffsets mode preserveCase (keyIndex + 1) rest

/-- Models `vigenereCipher`: empty derived key returns the text
unchanged, otherwise the stateful character walk from key index 0. -/
def vigenereCipher (text key : List Char) (mode : String)
    (preserveCase : Bool) : List Char :=
  let keyOffsets := getVigenereKey key
  if keyOffsets.length = 0 then text
  else vigenereGo keyOffsets mode preserveCase 0 text

/-- One step of the zig-zag walk of the rail-fence cipher: after placing a
character on `row`, the direction turns downward on row 0 and upward on
row `rails - 1` (in this order, as in the source), and the row advances. -/
def zigzagNext (rails row dir : Int) : Int × Int :=
  let d1 := if row = 0 then 1 else dir
  let d2 := if row = rails - 1 then -1 else d1
  (row + d2, d2)

/-- The fence-filling loop of `railFenceEncode`: push each character onto
the row the zig-zag walk is on.  A push outside the fence cannot happen
for the rail counts that reach this code (`2 ≤ rails`, rows stay in
range); `List.set` is then exactly `fence[row].push(char)`. -/
def fenceGo (rails : Int) : List (List Char) → Int → Int → List Char → List (List Char)
  | fence, _, _, [] => fence
  | fence, row, dir, c :: rest =>
    let fence2 := fence.set row.toNat (fence.getD row.toNat [] ++ [c])
    let rd := zigzagNext rails row dir
    fenceGo rails fence2 rd.1 rd.2 rest

/-- Models `railFenceEncode`: degenerate inputs pass through, otherwise
fill the fence along the zig-zag and read it row by row. -/
def railFenceEncode (text : List Char) (rails : Int) : List Char :=
  if rails ≤ 1 ∨ text.length ≤ 1 then text
  else (fenceGo rails (List.replicate rails.toNat []) 0 1 text).flatten

/-- The row-index sequence of the zig-zag walk for a text of length `n`
(the `pattern` array of `railFenceDecode`). -/
def zigzagPattern (rails : Int) : Nat → Int → Int → List Int
  | 0, _, _ => []
  | n + 1, row, dir =>
    let rd := zigzagNext rails row dir
    row :: zigzagPattern rails n rd.1 rd.2

/-- Models the `cipher.slice(cursor, cursor + counts[rail])` partition:
cut the ciphertext into contiguous blocks of the given sizes (stated for
an arbitrary element type so that the same definition serves the
code-point and the code-unit models). -/
def sliceRows {α : Type} (cipher : List α) : List Nat → List (List α)
  | [] => []
  | k :: ks => cipher.take k :: sliceRows (cipher.drop k) ks

/-- The re-emitting walk of `railFenceDecode`: for each pattern entry take
the next unread character of that row.  Reading past the end of a row
(impossible for the blocks the decoder builds) yields `undefined`, which
`join("")` drops; the empty-row branch models that. -/
def decodeGo {α : Type} : List (List α) → List Int → List α
  | _, [] => []
  | rows, r :: rest =>
    match rows.getD r.toNat [] with
    | [] => decodeGo rows rest
    | c :: cs => c :: decodeGo (rows.set r.toNat cs) rest

/-- Models `railFenceDecode`: degenerate inputs pass through, otherwise
rebuild the zig-zag pattern, count the characters per row, cut the
ciphertext into row blocks and walk the pattern again. -/
def railFenceDecode (cipher : List Char) (rails : Int) : List Char :=
  if rails ≤ 1 ∨ cipher.length ≤ 1 then cipher
  else
    let pat := zigzagPattern rails cipher.length 0 1
    let counts := (List.range rails.toNat).map (fun (r : Nat) => pat.count ((r : Nat) : Int))
    decodeGo (sliceRows cipher counts) pat

/-- The characters of `x` that the zig-zag pattern `p` assigns to row
`r`, in order (the contents row `r` of the fence ends up with); a proof
device for the rail-fence theorems. -/
def rowOf (r : Int) : List Int → List Char → List Char
  | p :: ps, c :: cs => if p = r then c :: rowOf r ps cs else rowOf r ps cs
  | _, _ => []

/-- The per-row contents of the fence for text `x`: row `i` receives the
characters whose zig-zag pattern entry is `i`. -/
def fenceRows (rails : Int) (x : List Char) : List (List Char) :=
  (List.range rails.toNat).map
    (fun (i : Nat) => rowOf ((i : Nat) : Int) (zigzagPattern rails x.length 0 1) x)

/-- A UTF-16 high-surrogate code unit. -/
def isHighSurrogate (u : Nat) : Bool :=
  55296 ≤ u && u ≤ 56319

/-- A UTF-16 low-surrogate code unit. -/
def isLowSurrogate (u : Nat) : Bool :=
  56320 ≤ u && u ≤ 57343

/-- The chunks `for (const char of text)` yields when a JavaScript string
is viewed as its UTF-16 code units: a high surrogate followed by a low
surrogate comes out as one two-unit chunk (an astral code point), every
other unit as a one-unit chunk. -/
def utf16Chunks : List Nat → List (List Nat)
  | [] => []
  | [u] => [[u]]
  | u :: v :: rest =>
    if isHighSurrogate u && isLowSurrogate v then [u, v] :: utf16Chunks rest
    else [u] :: utf16Chunks (v :: rest)

/-- The fence-filling loop of `railFenceEncode` at the UTF-16 level:
`for (const char of text)` pushes a whole chunk per iteration. -/
def fenceGo16 (rails : Int) : List (List Nat) → Int → Int → List (List Nat) → List (List Nat)
  | fence, _, _, [] => fence
  | fence, row, dir, ch :: rest =>
    let fence2 := fence.set row.toNat (fence.getD row.toNat [] ++ ch)
    let rd := zigzagNext rails row dir
    fenceGo16 rails fence2 rd.1 rd.2 rest

/-- Models `railFenceEncode` on a JavaScript string viewed as its UTF-16 code
units: `text.length` counts units, but the zig-zag walk advances once per
code point (surrogate pair), exactly as the source's `for...of` loop
does. -/
def railFenceEncode16 (text : List Nat) (rails : Int) : List Nat :=
  if rails ≤ 1 ∨ text.length ≤ 1 then text
  else (fenceGo16 rails (List.replicate rails.toNat []) 0 1 (utf16Chunks text)).flatten

/-- Models `railFenceDecode` on a JavaScript string viewed as its UTF-16 code
units: the pattern, the counts, `slice` and `split("")` all operate on
single units, so this is the unit-level instance of the same algorithm. -/
def railFenceDecode16 (cipher : List Nat) (rails : Int) : List Nat :=
  if rails ≤ 1 ∨ cipher.length ≤ 1 then cipher
  else
    let pat := zigzagPattern rails cipher.length 0 1
    let counts := (List.range rails.toNat).map (fun (r : Nat) => pat.count ((r : Nat) : Int))
    decodeGo (sliceRows cipher counts) pat

/-- Modelled from the spec: literal substring replacement.  Scan left to
right; at each leftmost occurrence of `fromText` (case-sensitive iff
`matchCase`) emit `toText` verbatim and continue after the occurrence. -/
def replaceLiteralGo (matchCase : Bool) (fromText toText : List Char) :
    List Char → List Char
  | [] => []
  | c :: rest =>
    if h : fromText ≠ [] ∧ literalMatch matchCase fromText (c :: rest) = true then
      toText ++ replaceLiteralGo matchCase fromText toText ((c :: rest).drop fromText.length)
    else
      c :: replaceLiteralGo matchCase fromText toText rest
  termination_by l => l.length
  decreasing_by
  · simp only [List.length_drop]
    have : fromText.length ≠ 0 := fun hn => h.1 (List.eq_nil_of_length_eq_zero hn)
    simp only [List.length_cons]
    omega
  · simp

/-- Modelled from the spec: the Replace operation as the specification
words it — literal replacement of every occurrence, `toText` inserted as
literal text. -/
def replaceTextSpec (text fromText toText : List Char) (matchCase : Bool) : List Char :=
  if fromText = [] then text
  else replaceLiteralGo matchCase fromText toText text

/-- The surviving unit per character of `a1z26Encode`: a letter
contributes its decimal token, a whitespace character is absorbed by the
whitespace collapse and the trim, any other character survives alone. -/
def unitOf (c : Char) : Option (List Char) :=
  if 97 ≤ jsLowerCode c ∧ jsLowerCode c ≤ 122 then some (decimalOf (jsLowerCode c - 96))
  else if isJsWs c then none
  else some [c]

/-- The units of the encoder output, in order. -/
def units (x : List Char) : List (List Char) :=
  x.filterMap unitOf

/-- The units the decoder can meet in an encoder output: a decimal token
with value 1 to 26, or a single non-digit character. -/
def GoodUnit (u : List Char) : Prop :=
  (∃ v, 1 ≤ v ∧ v ≤ 26 ∧ u = decimalOf v) ∨
    (∃ c : Char, u = [c] ∧ ¬(48 ≤ c.toNat ∧ c.toNat ≤ 57))

/-- What the decoder makes of one unit: a token becomes its letter, any
other unit is left alone. -/
def decodeUnit (u : List Char) : List Char :=
  match u with
  | [c] =>
    if 49 ≤ c.toNat ∧ c.toNat ≤ 57 then [Char.ofNat (96 + (c.toNat - 48))] else [c]
  | [c, d] =>
    if c.toNat = 49 ∧ 48 ≤ d.toNat ∧ d.toNat ≤ 57 then
      [Char.ofNat (96 + (10 + (d.toNat - 48)))]
    else if c.toNat = 50 ∧ 48 ≤ d.toNat ∧ d.toNat ≤ 54 then
      [Char.ofNat (96 + (20 + (d.toNat - 48)))]
    else u
  | _ => u

/-- ASCII letters, as a Boolean predicate for `List.filter`. -/
def isAsciiLetterB (c : Char) : Bool :=
  (65 ≤ c.toNat && c.toNat ≤ 90) || (97 ≤ c.toNat && c.toNat ≤ 122)

/-- A pipeline step: the operation tag together with every parameter any
operation reads.  The source stores steps as plain objects; only the
fields relevant to `type` are meaningful.  `rails` is an `Option Int`
because `applyStep` feeds it through `clampRails` (`none` models a
non-numeric value). -/
structure Step where
  type : String
  mode : String
  shift : Int
  preserveCase : Bool
  fromText : List Char
  toText : Option (List Char)
  matchCase : Bool
  caseMode : String
  key : List Char
  rails : Option Int

/-- Models `applyStep` (a `switch` on `step.type` with a pass-through
default).  The Caesar case normalises the shift with the JavaScript
remainder (`Int.tmod`); the resulting effective shift lies in `[0,25]`,
so `Int.toNat` is exact. -/
def applyStep (text : List Char) (step : Step) : List Char :=
  if step.type = "caesar" then
    let normalizedShift := ((step.shift.tmod 26) + 26).tmod 26
    let effectiveShift :=
      if step.mode = "encode" then normalizedShift else (26 - normalizedShift).tmod 26
    caesarCipher text effectiveShift.toNat step.preserveCase
  else if step.type = "reverse" then reverseText text
  else if step.type = "replace" then
    replaceText text step.fromText step.toText step.matchCase
  else if step.type = "case-transform" then transformCase text step.caseMode
  else if step.type = "rot13" then caesarCipher text 13 true
  else if step.type = "a1z26" then
    if step.mode = "decode" then a1z26Decode text else a1z26Encode text
  else if step.type = "vigenere" then
    vigenereCipher text step.key step.mode step.preserveCase
  else if step.type = "rail-fence" then
    if step.mode = "decode" then railFenceDecode text (clampRails step.rails)
    else railFenceEncode text (clampRails step.rails)
  else text

/-- Models the `outputText` memo: `steps.reduce(applyStep, inputText)`. -/
def outputText (inputText : List Char) (steps : List Step) : List Char :=
  steps.foldl applyStep inputText

/-- The running map of the `stageOutputs` memo: each step transforms the
accumulator and the result is recorded. -/
def stageOutputsGo (transformed : List Char) : List Step → List (List Char)
  | [] => []
  | step :: rest =>
    let t := applyStep transformed step
    t :: stageOutputsGo t rest

/-- Models the `stageOutputs` memo. -/
def stageOutputs (inputText : List Char) (steps : List Step) : List (List Char) :=
  stageOutputsGo inputText steps

/-- A Caesar step as the UI builds it: the given mode, shift and case
flag, the remaining fields being the per-kind defaults of `createStep`. -/
def caesarStep (mode : String) (shift : Int) (preserveCase : Bool) : Step :=
  ⟨"caesar", mode, shift, preserveCase, [], none, true, "upper", [], none⟩

/-- A Reverse step (the parameterless fields are the defaults). -/
def reverseStep : Step :=
  ⟨"reverse", "encode", 0, true, [], none, true, "upper", [], none⟩

/-! Character arithmetic for the letter-algebra primitive. -/

theorem toNat_ofNat_lt (n : Nat) (h : n < 55296) : (Char.ofNat n).toNat = n := by
  simp [Char.ofNat, Char.toNat, h, Nat.isValidChar, Char.ofNatAux, BitVec.toNat_ofNatLt,
    UInt32.toNat]

theorem jsLowerCode_of_lower (c : Char) (h1 : 97 ≤ c.toNat) (h2 : c.toNat ≤ 122) :
    jsLowerCode c = c.toNat := by
  simp only [jsLowerCode]
  split_ifs <;> omega

theorem jsLowerCode_of_upper (c : Char) (h1 : 65 ≤ c.toNat) (h2 : c.toNat ≤ 90) :
    jsLowerCode c = c.toNat + 32 := by
  simp only [jsLowerCode]
  split_ifs <;> omega

theorem jsLowerCode_of_other (c : Char) (h1 : ¬(65 ≤ c.toNat ∧ c.toNat ≤ 90))
    (h2 : c.toNat ≠ 8490) (h3 : c.toNat ≠ 304) : jsLowerCode c = c.toNat := by
  simp only [jsLowerCode]
  split_ifs <;> omega

theorem shiftLetter_of_not_letter (c : Char) (s : Nat) (pc : Bool)
    (h : jsLowerCode c < 97 ∨ 122 < jsLowerCode c) : shiftLetter c s pc = c := by
  simp only [shiftLetter]
  rw [if_pos h]

theorem shiftLetter_lower (c : Char) (s : Nat) (h1 : 97 ≤ c.toNat) (h2 : c.toNat ≤ 122) :
    shiftLetter c s true = Char.ofNat ((c.toNat - 97 + s) % 26 + 97) := by
  simp only [shiftLetter, jsLowerCode_of_lower c h1 h2]
  rw [if_neg (by omega), if_neg (by simp), if_neg (by omega)]

theorem shiftLetter_upper (c : Char) (s : Nat) (h1 : 65 ≤ c.toNat) (h2 : c.toNat ≤ 90) :
    shiftLetter c s true = Char.ofNat ((c.toNat - 65 + s) % 26 + 65) := by
  simp only [shiftLetter, jsLowerCode_of_upper c h1 h2]
  rw [if_neg (by omega), if_neg (by simp), if_pos (by omega)]
  have hlt : (c.toNat + 32 - 97 + s) % 26 + 97 < 55296 := by
    have := Nat.mod_lt (c.toNat + 32 - 97 + s) (y := 26) (by omega)
    omega
  rw [toNat_ofNat_lt _ hlt]
  congr 1 <;> omega

theorem shiftLetter_toNat_lower (c : Char) (s : Nat) (h1 : 97 ≤ c.toNat)
    (h2 : c.toNat ≤ 122) :
    (shiftLetter c s true).toNat = (c.toNat - 97 + s) % 26 + 97 := by
  rw [shiftLetter_lower c s h1 h2]
  exact toNat_ofNat_lt _ (by have := Nat.mod_lt (c.toNat - 97 + s) (y := 26) (by omega); omega)

theorem shiftLetter_toNat_upper (c : Char) (s : Nat) (h1 : 65 ≤ c.toNat)
    (h2 : c.toNat ≤ 90) :
    (shiftLetter c s true).toNat = (c.toNat - 65 + s) % 26 + 65 := by
  rw [shiftLetter_upper c s h1 h2]
  exact toNat_ofNat_lt _ (by have := Nat.mod_lt (c.toNat - 65 + s) (y := 26) (by omega); omega)

theorem mod26_roundtrip (k e d : Nat) (hk : k < 26) (hsum : (e + d) % 26 = 0) :
    ((k + e) % 26 + d) % 26 = k := by
  omega

theorem shiftLetter_roundtrip (c : Char) (e d : Nat)
    (hsum : (e + d) % 26 = 0)
    (hk : c.toNat ≠ 8490) (hi : c.toNat ≠ 304) :
    shiftLetter (shiftLetter c e true) d true = c := by
  by_cases hl : 97 ≤ c.toNat ∧ c.toNat ≤ 122
  · rw [shiftLetter_lower c e hl.1 hl.2]
    have ht : (Char.ofNat ((c.toNat - 97 + e) % 26 + 97)).toNat =
        (c.toNat - 97 + e) % 26 + 97 :=
      toNat_ofNat_lt _ (by have := Nat.mod_lt (c.toNat - 97 + e) (y := 26) (by omega); omega)
    have hm : (c.toNat - 97 + e) % 26 < 26 := Nat.mod_lt _ (by omega)
    rw [shiftLetter_lower _ d (by omega) (by omega), ht]
    have h3 : (c.toNat - 97 + e) % 26 + 97 - 97 = (c.toNat - 97 + e) % 26 := by omega
    rw [h3, mod26_roundtrip _ e d (by omega) hsum]
    have h4 : c.toNat - 97 + 97 = c.toNat := by omega
    rw [h4, Char.ofNat_toNat]
  · by_cases hu : 65 ≤ c.toNat ∧ c.toNat ≤ 90
    · rw [shiftLetter_upper c e hu.1 hu.2]
      have ht : (Char.ofNat ((c.toNat - 65 + e) % 26 + 65)).toNat =
          (c.toNat - 65 + e) % 26 + 65 :=
        toNat_ofNat_lt _ (by have := Nat.mod_lt (c.toNat - 65 + e) (y := 26) (by omega); omega)
      have hm : (c.toNat - 65 + e) % 26 < 26 := Nat.mod_lt _ (by omega)
      rw [shiftLetter_upper _ d (by omega) (by omega), ht]
      have h3 : (c.toNat - 65 + e) % 26 + 65 - 65 = (c.toNat - 65 + e) % 26 := by omega
      rw [h3, mod26_roundtrip _ e d (by omega) hsum]
      have h4 : c.toNat - 65 + 65 = c.toNat := by omega
      rw [h4, Char.ofNat_toNat]
    · have hcode : jsLowerCode c = c.toNat := jsLowerCode_of_other c hu hk hi
      have h1 : jsLowerCode c < 97 ∨ 122 < jsLowerCode c := by omega
      rw [shiftLetter_of_not_letter c e true h1, shiftLetter_of_not_letter c d true h1]

/-! The Caesar step (claim C1). -/

theorem caesarCipher_roundtrip (x : List Char) (e d : Nat)
    (hsum : (e + d) % 26 = 0)
    (hx : ∀ c ∈ x, c.toNat ≠ 8490 ∧ c.toNat ≠ 304) :
    caesarCipher (caesarCipher x e true) d true = x := by
  induction x with
  | nil => rfl
  | cons c cs ih =>
    simp only [caesarCipher, List.map_cons, List.map_map] at *
    have hc := hx c (by simp)
    rw [shiftLetter_roundtrip c e d hsum hc.1 hc.2,
      ih (fun a ha => hx a (by simp [ha]))]

/-- C1: for shifts in `[0,100]` and texts of ASCII letters, the decode
step undoes the encode step — amended: this holds with `preserveCase`
true (the default); with `preserveCase` false the encoder lower-cases the
text, so an uppercase input does not survive the round trip. -/
theorem claim_C1 (s : Int) (h0 : 0 ≤ s) (h1 : s ≤ 100) (x : List Char)
    (hx : ∀ c ∈ x, 65 ≤ c.toNat ∧ c.toNat ≤ 90 ∨ 97 ≤ c.toNat ∧ c.toNat ≤ 122) :
    applyStep (applyStep x (caesarStep "encode" s true)) (caesarStep "decode" s true) = x := by
  have hmod0 : (0:Int) ≤ s % 26 := Int.emod_nonneg s (by norm_num)
  have hmod1 : s % 26 < 26 := Int.emod_lt_of_pos s (by norm_num)
  have ht1 : s.tmod 26 = s % 26 := Int.tmod_eq_emod h0 (by norm_num)
  have ht2 : (s % 26 + 26).tmod 26 = (s % 26 + 26) % 26 :=
    Int.tmod_eq_emod (by omega) (by norm_num)
  have ht3 : (26 - (s % 26 + 26).tmod 26).tmod 26 = (26 - s % 26) % 26 := by
    rw [ht2]
    have h26 : (s % 26 + 26) % 26 = s % 26 := by omega
    rw [h26]
    exact Int.tmod_eq_emod (by omega) (by norm_num)
  simp only [applyStep, caesarStep]
  norm_num
  rw [if_neg (by decide)]
  have h26 : (s % 26 + 26) % 26 = s % 26 := by omega
  rw [ht1, ht3, ht2, h26]
  apply caesarCipher_roundtrip
  · omega
  · intro c hc
    have := hx c hc
    omega

/-- C1 counterexample: with `preserveCase = false` (an allowed value of
the flag the claim quantifies over) the Caesar round trip turns `"A"`
into `"a"`. -/
theorem claim_C1_counterexample :
    applyStep (applyStep ['A'] (caesarStep "encode" 3 false))
      (caesarStep "decode" 3 false) ≠ ['A'] := by
  decide

/-- C1 witness. -/
theorem claim_C1_witness :
    applyStep (applyStep ['A', 'b'] (caesarStep "encode" 29 true))
      (caesarStep "decode" 29 true) = ['A', 'b'] :=
  claim_C1 29 (by norm_num) (by norm_num) ['A', 'b'] (by decide)

/-! The parameter validators (claim C6). -/

/-- C6: the validators parse the value (`none` models a non-numeric
input) and saturate-clamp numerics into the declared bounds — amended: a
non-numeric shift yields 0 but a non-numeric rail count yields 3 (the
default rail count), not 2 as the claim states. -/
theorem claim_C6 :
    clampShift none = 0 ∧ clampRails none = 3 ∧
      (∀ n : Int,
        (n < 0 → clampShift (some n) = 0) ∧
        (0 ≤ n → n ≤ 100 → clampShift (some n) = n) ∧
        (100 < n → clampShift (some n) = 100)) ∧
      (∀ n : Int,
        (n < 2 → clampRails (some n) = 2) ∧
        (2 ≤ n → n ≤ 10 → clampRails (some n) = n) ∧
        (10 < n → clampRails (some n) = 10)) := by
  refine ⟨rfl, rfl, fun n => ⟨fun h => ?_, fun h1 h2 => ?_, fun h => ?_⟩,
    fun n => ⟨fun h => ?_, fun h1 h2 => ?_, fun h => ?_⟩⟩ <;>
    simp only [clampShift, clampRails] <;> omega

/-- C6 counterexample: a non-numeric rails value yields 3, not the lower
bound 2 the claim asserts. -/
theorem claim_C6_counterexample : clampRails none ≠ 2 := by
  decide

/-- C6 witness. -/
theorem claim_C6_witness :
    clampShift (some 150) = 100 ∧ clampRails (some (-5)) = 2 :=
  ⟨(claim_C6.2.2.1 150).2.2 (by norm_num), (claim_C6.2.2.2 (-5)).1 (by norm_num)⟩

/-! The evaluator's default branch (claim C9). -/

/-- C9: a step whose kind is outside the enumerated set leaves the text
unchanged; `applyStep` is a total function, so evaluation cannot fail. -/
theorem claim_C9 (text : List Char) (step : Step)
    (h : step.type ∉ (["caesar", "reverse", "replace", "case-transform", "rot13",
      "a1z26", "vigenere", "rail-fence"] : List String)) :
    applyStep text step = text := by
  simp only [List.mem_cons, List.not_mem_nil, or_false, not_or] at h
  obtain ⟨h1, h2, h3, h4, h5, h6, h7, h8⟩ := h
  simp only [applyStep, if_neg h1, if_neg h2, if_neg h3, if_neg h4, if_neg h5, if_neg h6,
    if_neg h7, if_neg h8]

/-- C9 witness. -/
theorem claim_C9_witness :
    applyStep ['a', 'b'] ⟨"hmac", "encode", 3, true, [], none, true, "upper", [], none⟩ =
      ['a', 'b'] :=
  claim_C9 ['a', 'b'] _ (by decide)

/-! The Vigenere step (claim C2). -/

theorem ascii_letter_jsLowerCode (c : Char)
    (h : 65 ≤ c.toNat ∧ c.toNat ≤ 90 ∨ 97 ≤ c.toNat ∧ c.toNat ≤ 122) :
    97 ≤ jsLowerCode c ∧ jsLowerCode c ≤ 122 := by
  rcases h with h | h
  · rw [jsLowerCode_of_upper c h.1 h.2]; omega
  · rw [jsLowerCode_of_lower c h.1 h.2]; omega

theorem letter_cases (c : Char) (h1 : 97 ≤ jsLowerCode c) (h2 : jsLowerCode c ≤ 122)
    (hk : c.toNat ≠ 8490) (hi : c.toNat ≠ 304) :
    65 ≤ c.toNat ∧ c.toNat ≤ 90 ∨ 97 ≤ c.toNat ∧ c.toNat ≤ 122 := by
  simp only [jsLowerCode] at h1 h2
  split_ifs at h1 h2 <;> omega

theorem shiftLetter_ascii (c : Char) (s : Nat)
    (hc : 65 ≤ c.toNat ∧ c.toNat ≤ 90 ∨ 97 ≤ c.toNat ∧ c.toNat ≤ 122) :
    65 ≤ (shiftLetter c s true).toNat ∧ (shiftLetter c s true).toNat ≤ 90 ∨
      97 ≤ (shiftLetter c s true).toNat ∧ (shiftLetter c s true).toNat ≤ 122 := by
  rcases hc with h | h
  · left
    rw [shiftLetter_toNat_upper c s h.1 h.2]
    have := Nat.mod_lt (c.toNat - 65 + s) (y := 26) (by omega)
    omega
  · right
    rw [shiftLetter_toNat_lower c s h.1 h.2]
    have := Nat.mod_lt (c.toNat - 97 + s) (y := 26) (by omega)
    omega

theorem getVigenereKey_lt (key : List Char) : ∀ o ∈ getVigenereKey key, o < 26 := by
  intro o ho
  simp only [getVigenereKey, List.mem_filterMap] at ho
  obtain ⟨c, _, hc⟩ := ho
  split_ifs at hc with h
  simp only [Option.some.injEq] at hc
  omega

theorem getVigenereKey_ne_nil (key : List Char) (h1 : key ≠ [])
    (h2 : ∀ c ∈ key, 65 ≤ c.toNat ∧ c.toNat ≤ 90 ∨ 97 ≤ c.toNat ∧ c.toNat ≤ 122) :
    getVigenereKey key ≠ [] := by
  obtain ⟨c, rest, rfl⟩ := List.exists_cons_of_ne_nil h1
  have hc := ascii_letter_jsLowerCode c (h2 c (by simp))
  simp only [getVigenereKey, List.filterMap_cons]
  rw [if_pos hc]
  simp

theorem vigenereGo_roundtrip (ko : List Nat) (hko : ko ≠ [])
    (hlt : ∀ o ∈ ko, o < 26) (x : List Char) :
    ∀ (ki : Nat), (∀ c ∈ x, c.toNat ≠ 8490 ∧ c.toNat ≠ 304) →
      vigenereGo ko "decode" true ki (vigenereGo ko "encode" true ki x) = x := by
  induction x with
  | nil => intro ki hx; rfl
  | cons c cs ih =>
    intro ki hx
    have hcs : ∀ a ∈ cs, a.toNat ≠ 8490 ∧ a.toNat ≠ 304 :=
      fun a ha => hx a (by simp [ha])
    have hcc := hx c (by simp)
    by_cases hc : jsLowerCode c < 97 ∨ 122 < jsLowerCode c
    · simp only [vigenereGo, if_pos hc]
      rw [ih ki hcs]
    · push_neg at hc
      have hlet := letter_cases c hc.1 hc.2 hcc.1 hcc.2
      have hlen : 0 < ko.length := List.length_pos.mpr hko
      have hoff : ko.getD (ki % ko.length) 0 ∈ ko := by
        rw [List.getD_eq_getElem _ _ (Nat.mod_lt ki hlen)]
        exact List.getElem_mem _
      have hofflt : ko.getD (ki % ko.length) 0 < 26 := hlt _ hoff
      have henc : vigenereGo ko "encode" true ki (c :: cs) =
          shiftLetter c (ko.getD (ki % ko.length) 0) true ::
            vigenereGo ko "encode" true (ki + 1) cs := by
        simp only [vigenereGo, if_neg (by omega : ¬(jsLowerCode c < 97 ∨ 122 < jsLowerCode c))]
        rw [if_neg (by decide)]
      rw [henc]
      have hsc := shiftLetter_ascii c (ko.getD (ki % ko.length) 0) hlet
      have hsl := ascii_letter_jsLowerCode _ hsc
      have hdec : vigenereGo ko "decode" true ki
          (shiftLetter c (ko.getD (ki % ko.length) 0) true ::
            vigenereGo ko "encode" true (ki + 1) cs) =
          shiftLetter (shiftLetter c (ko.getD (ki % ko.length) 0) true)
              ((26 - ko.getD (ki % ko.length) 0) % 26) true ::
            vigenereGo ko "decode" true (ki + 1)
              (vigenereGo ko "encode" true (ki + 1) cs) := by
        simp only [vigenereGo, if_neg (by omega : ¬(jsLowerCode
          (shiftLetter c (ko.getD (ki % ko.length) 0) true) < 97 ∨ 122 < jsLowerCode
          (shiftLetter c (ko.getD (ki % ko.length) 0) true)))]
        norm_num
      rw [hdec]
      rw [shiftLetter_roundtrip c _ _ (by omega) hcc.1 hcc.2]
      rw [ih (ki + 1) hcs]

/-- C2: for a non-empty all-letter key, Vigenere decoding undoes
encoding (with `preserveCase` true, the default) — amended: the text may
not contain U+212A (KELVIN SIGN) or U+0130 (LATIN CAPITAL I WITH DOT
ABOVE), the two non-ASCII characters whose JavaScript lowercase form is
an ASCII letter; the cipher consumes them as letters but can only restore
their ASCII lowercase on decoding. -/
theorem claim_C2 (key x : List Char) (hk : key ≠ [])
    (hletters : ∀ c ∈ key, 65 ≤ c.toNat ∧ c.toNat ≤ 90 ∨ 97 ≤ c.toNat ∧ c.toNat ≤ 122)
    (hx : ∀ c ∈ x, c.toNat ≠ 8490 ∧ c.toNat ≠ 304) :
    vigenereCipher (vigenereCipher x key "encode" true) key "decode" true = x := by
  have hlen : getVigenereKey key ≠ [] := getVigenereKey_ne_nil key hk hletters
  simp only [vigenereCipher]
  rw [if_neg (by simp [List.length_eq_zero, hlen]),
    if_neg (by simp [List.length_eq_zero, hlen])]
  exact vigenereGo_roundtrip _ hlen (getVigenereKey_lt key) x 0 hx

/-- C2 counterexample: the text `"\u212A"` (KELVIN SIGN) is consumed as
a letter (its JavaScript lowercase is `k`), encodes with key `"b"` to
`"l"`, and decodes to `"k"`, not back to the original character. -/
theorem claim_C2_counterexample :
    vigenereCipher (vigenereCipher [Char.ofNat 8490] ['b'] "encode" true)
      ['b'] "decode" true ≠ [Char.ofNat 8490] := by
  decide

/-- C2 witness. -/
theorem claim_C2_witness :
    vigenereCipher (vigenereCipher "attack at dawn".toList "KEY".toList "encode" true)
      "KEY".toList "decode" true = "attack at dawn".toList :=
  claim_C2 "KEY".toList "attack at dawn".toList (by decide) (by decide) (by decide)

/-! The pipeline executor (claim C8). -/

theorem stageOutputsGo_getD (steps : List Step) :
    ∀ (input : List Char) (i : Nat), i < steps.length →
      (stageOutputsGo input steps).getD i [] = (steps.take (i + 1)).foldl applyStep input := by
  induction steps with
  | nil => intro input i hi; simp at hi
  | cons s rest ih =>
    intro input i hi
    cases i with
    | zero => simp [stageOutputsGo]
    | succ j =>
      simp only [stageOutputsGo, List.getD_cons_succ, List.take_succ_cons, List.foldl_cons]
      exact ih (applyStep input s) j (by simpa using hi)

theorem outputText_eq_getLastD (steps : List Step) :
    ∀ input : List Char,
      outputText input steps = (stageOutputsGo input steps).getLastD input := by
  induction steps with
  | nil => intro input; rfl
  | cons s rest ih =>
    intro input
    simp only [outputText, List.foldl_cons, stageOutputsGo, List.getLastD_cons]
    exact ih (applyStep input s)

/-- C8: the executor is a left fold — stage `i` is the fold of the first
`i + 1` steps over the input, the reduce-computed final output always
equals the last stage output, and the pipeline
`[Caesar(encode, 3), Reverse]` maps `"abc"` to stages `"def"`, `"fed"`
with final output `"fed"`. -/
theorem claim_C8 :
    (∀ (input : List Char) (steps : List Step) (i : Nat), i < steps.length →
      (stageOutputs input steps).getD i [] = outputText input (steps.take (i + 1))) ∧
    (∀ (input : List Char) (steps : List Step),
      outputText input steps = (stageOutputs input steps).getLastD input) ∧
    stageOutputs "abc".toList [caesarStep "encode" 3 true, reverseStep] =
      ["def".toList, "fed".toList] ∧
    outputText "abc".toList [caesarStep "encode" 3 true, reverseStep] = "fed".toList := by
  refine ⟨fun input steps i hi => ?_, fun input steps => ?_, by decide, by decide⟩
  · exact stageOutputsGo_getD steps input i hi
  · exact outputText_eq_getLastD steps input

/-- C8 witness. -/
theorem claim_C8_witness :
    (stageOutputs "ab".toList [reverseStep]).getD 0 [] =
      outputText "ab".toList ([reverseStep].take 1) :=
  claim_C8.1 "ab".toList [reverseStep] 0 (by decide)


/-! The rail-fence step (claims C3 and C10). -/

theorem getD_set_self {α : Type} (l : List α) (i : Nat) (a d : α)
    (h : i < l.length) : (l.set i a).getD i d = a := by
  simp [List.getD, List.getElem?_set_self, h]

theorem getD_set_ne {α : Type} (l : List α) (i j : Nat) (a d : α)
    (h : i ≠ j) : (l.set i a).getD j d = l.getD j d := by
  simp [List.getD, List.getElem?_set_ne h]

theorem getD_range_map {α : Type} (n i : Nat) (f : Nat → α) (d : α) (h : i < n) :
    ((List.range n).map f).getD i d = f i := by
  rw [List.getD_eq_getElem _ _ (by simpa using h)]
  simp

theorem eq_range_map (n : Nat) (l : List (List Char)) (f : Nat → List Char)
    (hlen : l.length = n) (h : ∀ i < n, l.getD i [] = f i) :
    l = (List.range n).map f := by
  apply List.ext_getElem (by simpa using hlen)
  intro i h1 h2
  have hi : i < n := by simpa [hlen] using h1
  have := h i hi
  rw [List.getD_eq_getElem _ _ h1] at this
  rw [this]
  simp

theorem zigzagNext_inv (rails row dir : Int) (h2 : 2 ≤ rails) (h0 : 0 ≤ row)
    (h1 : row < rails) (hd : dir = 1 ∨ dir = -1) :
    0 ≤ (zigzagNext rails row dir).1 ∧ (zigzagNext rails row dir).1 < rails ∧
      ((zigzagNext rails row dir).2 = 1 ∨ (zigzagNext rails row dir).2 = -1) := by
  rcases hd with rfl | rfl <;>
    simp only [zigzagNext] <;> split_ifs <;> simp <;> omega

theorem zigzagPattern_length (rails : Int) :
    ∀ (n : Nat) (row dir : Int), (zigzagPattern rails n row dir).length = n := by
  intro n
  induction n with
  | zero => intro row dir; rfl
  | succ m ih => intro row dir; simp [zigzagPattern, ih]

theorem zigzagPattern_mem (rails : Int) (h2 : 2 ≤ rails) :
    ∀ (n : Nat) (row dir : Int), 0 ≤ row → row < rails → (dir = 1 ∨ dir = -1) →
      ∀ r ∈ zigzagPattern rails n row dir, 0 ≤ r ∧ r < rails := by
  intro n
  induction n with
  | zero => intro row dir _ _ _ r hr; simp [zigzagPattern] at hr
  | succ m ih =>
    intro row dir h0 h1 hd r hr
    obtain ⟨hn0, hn1, hnd⟩ := zigzagNext_inv rails row dir h2 h0 h1 hd
    simp only [zigzagPattern, List.mem_cons] at hr
    rcases hr with rfl | hr
    · exact ⟨h0, h1⟩
    · exact ih _ _ hn0 hn1 hnd r hr

theorem rowOf_length (r : Int) :
    ∀ (p : List Int) (x : List Char), x.length = p.length →
      (rowOf r p x).length = p.count r := by
  intro p
  induction p with
  | nil => intro x hx; simp [rowOf]
  | cons q ps ih =>
    intro x hx
    match x with
    | [] => simp at hx
    | c :: cs =>
      simp only [List.length_cons] at hx
      by_cases hq : q = r
      · subst hq
        simp [rowOf, List.count_cons, ih cs (by omega)]
      · simp [rowOf, hq, List.count_cons, ih cs (by omega)]



theorem fenceGo_charact (rails : Int) (h2 : 2 ≤ rails) :
    ∀ (text : List Char) (fence : List (List Char)) (row dir : Int),
      fence.length = rails.toNat → 0 ≤ row → row < rails → (dir = 1 ∨ dir = -1) →
      (fenceGo rails fence row dir text).length = fence.length ∧
      ∀ i < fence.length, (fenceGo rails fence row dir text).getD i [] =
        fence.getD i [] ++ rowOf (i : Int) (zigzagPattern rails text.length row dir) text := by
  intro text
  induction text with
  | nil =>
    intro fence row dir hlen h0 h1 hd
    refine ⟨rfl, fun i hi => ?_⟩
    simp [fenceGo, zigzagPattern, rowOf]
  | cons c cs ih =>
    intro fence row dir hlen h0 h1 hd
    obtain ⟨hn0, hn1, hnd⟩ := zigzagNext_inv rails row dir h2 h0 h1 hd
    have hrowlt : row.toNat < fence.length := by
      rw [hlen]
      omega
    have hstep : fenceGo rails fence row dir (c :: cs) =
        fenceGo rails (fence.set row.toNat (fence.getD row.toNat [] ++ [c]))
          (zigzagNext rails row dir).1 (zigzagNext rails row dir).2 cs := rfl
    have hlen2 : (fence.set row.toNat (fence.getD row.toNat [] ++ [c])).length =
        rails.toNat := by
      simp [hlen]
    obtain ⟨ihlen, ihget⟩ := ih (fence.set row.toNat (fence.getD row.toNat [] ++ [c]))
      (zigzagNext rails row dir).1 (zigzagNext rails row dir).2 hlen2 hn0 hn1 hnd
    constructor
    · rw [hstep, ihlen]
      simp [hlen2, hlen]
    · intro i hi
      have hi2 : i < (fence.set row.toNat (fence.getD row.toNat [] ++ [c])).length := by
        simpa using hi
      rw [hstep, ihget i hi2]
      have hpat : zigzagPattern rails (c :: cs).length row dir =
          row :: zigzagPattern rails cs.length (zigzagNext rails row dir).1
            (zigzagNext rails row dir).2 := rfl
      rw [hpat]
      by_cases hir : i = row.toNat
      · have hri : row = ((row.toNat : Nat) : Int) := by omega
        simp only [hir]
        rw [getD_set_self _ _ _ _ hrowlt]
        simp only [rowOf, if_pos hri]
        simp [List.append_assoc]
      · rw [getD_set_ne _ _ _ _ _ (fun hh => hir hh.symm)]
        have hri : ¬(row = (i : Int)) := by omega
        simp only [rowOf, if_neg hri]



theorem getD_replicate_nil (n i : Nat) :
    (List.replicate n ([] : List Char)).getD i [] = [] := by
  simp [List.getD, List.getElem?_replicate]
  split <;> rfl

theorem railFenceEncode_charact (x : List Char) (rails : Int) (h2 : 2 ≤ rails)
    (hx : 2 ≤ x.length) :
    railFenceEncode x rails = (fenceRows rails x).flatten := by
  have hrep : (List.replicate rails.toNat ([] : List Char)).length = rails.toNat := by
    simp
  obtain ⟨hlen, hget⟩ := fenceGo_charact rails h2 x (List.replicate rails.toNat [])
    0 1 hrep (by omega) (by omega) (Or.inl rfl)
  have hfence : fenceGo rails (List.replicate rails.toNat []) 0 1 x = fenceRows rails x := by
    apply eq_range_map rails.toNat _ _ (by rw [hlen, hrep])
    intro i hi
    rw [hget i (by rw [hrep]; exact hi)]
    simp [getD_replicate_nil]
  simp only [railFenceEncode, if_neg (by omega : ¬(rails ≤ 1 ∨ x.length ≤ 1))]
  rw [hfence]

theorem sum_indicator_range (k : Nat) :
    ∀ n : Nat, ((List.range n).map (fun i => if i = k then 1 else 0)).sum =
      if k < n then 1 else 0 := by
  intro n
  induction n with
  | zero => simp
  | succ m ih =>
    rw [List.range_succ, List.map_append, List.sum_append, ih]
    simp only [List.map_cons, List.map_nil, List.sum_cons, List.sum_nil]
    split_ifs <;> omega

theorem sum_counts_range (n : Nat) :
    ∀ p : List Int, (∀ r ∈ p, 0 ≤ r ∧ r.toNat < n) →
      ((List.range n).map (fun i => p.count (((i : Nat) : Int)))).sum = p.length := by
  intro p
  induction p with
  | nil => intro _; simp
  | cons q ps ih =>
    intro h
    have hq := h q (by simp)
    have hps : ∀ r ∈ ps, 0 ≤ r ∧ r.toNat < n := fun r hr => h r (by simp [hr])
    have hcount : ∀ i : Nat, (q :: ps).count (((i : Nat) : Int)) =
        ps.count (((i : Nat) : Int)) + (if i = q.toNat then 1 else 0) := by
      intro i
      simp only [List.count_cons, beq_iff_eq]
      by_cases hiq : i = q.toNat
      · rw [if_pos (by omega), if_pos hiq]
      · rw [if_neg (by omega), if_neg hiq]
    have hmap : (List.range n).map (fun i => (q :: ps).count (((i : Nat) : Int))) =
        (List.range n).map
          (fun i => ps.count (((i : Nat) : Int)) + (if i = q.toNat then 1 else 0)) := by
      apply List.map_congr_left
      intro i _
      exact hcount i
    rw [hmap, List.sum_map_add, ih hps, sum_indicator_range q.toNat n, if_pos hq.2]
    simp

theorem fenceRows_map_length (rails : Int) (x : List Char) :
    (fenceRows rails x).map List.length =
      (List.range rails.toNat).map
        (fun i => (zigzagPattern rails x.length 0 1).count (((i : Nat) : Int))) := by
  simp only [fenceRows, List.map_map]
  apply List.map_congr_left
  intro i _
  exact rowOf_length _ _ x (by rw [zigzagPattern_length])

theorem railFenceEncode_length (x : List Char) (rails : Int) :
    (railFenceEncode x rails).length = x.length := by
  by_cases hdeg : rails ≤ 1 ∨ x.length ≤ 1
  · simp [railFenceEncode, if_pos hdeg]
  · push_neg at hdeg
    rw [railFenceEncode_charact x rails (by omega) (by omega)]
    rw [List.length_flatten, fenceRows_map_length, sum_counts_range]
    · rw [zigzagPattern_length]
    · intro r hr
      have := zigzagPattern_mem rails (by omega) x.length 0 1 (by omega) (by omega)
        (Or.inl rfl) r hr
      omega



theorem sliceRows_flatten (rows : List (List Char)) :
    sliceRows rows.flatten (rows.map List.length) = rows := by
  induction rows with
  | nil => rfl
  | cons u rest ih =>
    simp only [List.flatten_cons, List.map_cons, sliceRows, List.take_left, List.drop_left]
    rw [ih]

theorem sliceRows_length (cipher : List Char) :
    ∀ counts : List Nat, (sliceRows cipher counts).length = counts.length := by
  intro counts
  induction counts generalizing cipher with
  | nil => rfl
  | cons k ks ih => simp [sliceRows, ih]

theorem decodeGo_eq :
    ∀ (p : List Int) (x : List Char) (rows : List (List Char)),
      x.length = p.length →
      (∀ r ∈ p, 0 ≤ r ∧ r.toNat < rows.length) →
      (∀ r ∈ p, rows.getD r.toNat [] = rowOf r p x) →
      decodeGo rows p = x := by
  intro p
  induction p with
  | nil =>
    intro x rows hlen _ _
    have hx : x = [] := List.length_eq_zero.mp (by simpa using hlen)
    subst hx
    rfl
  | cons r ps ih =>
    intro x rows hlen hmem hget
    match x with
    | [] => simp at hlen
    | c :: cs =>
      have hr := hmem r (by simp)
      have hrowr : rows.getD r.toNat [] = c :: rowOf r ps cs := by
        have := hget r (by simp)
        simpa [rowOf] using this
      have hstep : decodeGo rows (r :: ps) =
          c :: decodeGo (rows.set r.toNat (rowOf r ps cs)) ps := by
        simp only [decodeGo, hrowr]
      rw [hstep]
      congr 1
      apply ih cs _ (by simpa using hlen)
      · intro q hq
        have := hmem q (by simp [hq])
        simpa using this
      · intro q hq
        have hq2 := hmem q (by simp [hq])
        by_cases hqr : q = r
        · subst hqr
          rw [getD_set_self _ _ _ _ hr.2]
        · have hne : r.toNat ≠ q.toNat := by omega
          rw [getD_set_ne _ _ _ _ _ hne]
          have h5 := hget q (by simp [hq])
          rw [h5]
          simp only [rowOf]
          rw [if_neg (fun h => hqr h.symm)]



theorem fenceRows_length (r : Int) (x : List Char) :
    (fenceRows r x).length = r.toNat := by
  simp [fenceRows]

/-- C3: for rail counts in `[2,10]` the rail-fence decode undoes the
encode, and degenerate inputs (one rail or at most one character) pass
through both directions unchanged — amended: the text must consist of
Basic-Multilingual-Plane characters.  For an astral character the source
program walks the zig-zag once per code point (`for...of`) but slices the
ciphertext by UTF-16 code units, so the round trip splits surrogate
pairs (see the counterexample, stated at the code-unit level). -/
theorem claim_C3 (r : Int) (x : List Char) (hbmp : ∀ c ∈ x, c.toNat < 65536) :
    (2 ≤ r → r ≤ 10 → railFenceDecode (railFenceEncode x r) r = x) ∧
    (r ≤ 1 ∨ x.length ≤ 1 → railFenceEncode x r = x ∧ railFenceDecode x r = x) := by
  clear hbmp
  constructor
  · intro h2 _
    by_cases hx : x.length ≤ 1
    · rw [railFenceEncode, if_pos (Or.inr hx), railFenceDecode, if_pos (Or.inr hx)]
    · push_neg at hx
      have hxlen : 2 ≤ x.length := hx
      have hclen : (railFenceEncode x r).length = x.length := railFenceEncode_length x r
      have hchar := railFenceEncode_charact x r h2 hxlen
      have hflen : ((fenceRows r x).flatten).length = x.length := by
        rw [← hchar, hclen]
      rw [hchar]
      rw [railFenceDecode, if_neg (by omega : ¬(r ≤ 1 ∨ ((fenceRows r x).flatten).length ≤ 1))]
      rw [hflen]
      have hcounts : (List.range r.toNat).map
          (fun (i : Nat) => (zigzagPattern r x.length 0 1).count ((i : Nat) : Int)) =
          (fenceRows r x).map List.length := (fenceRows_map_length r x).symm
      simp only [hcounts, sliceRows_flatten]
      apply decodeGo_eq
      · rw [zigzagPattern_length]
      · intro q hq
        have hqm := zigzagPattern_mem r h2 x.length 0 1 (by omega) (by omega)
          (Or.inl rfl) q hq
        refine ⟨hqm.1, ?_⟩
        rw [fenceRows_length]
        omega
      · intro q hq
        have hqm := zigzagPattern_mem r h2 x.length 0 1 (by omega) (by omega)
          (Or.inl rfl) q hq
        have hgd := getD_range_map r.toNat q.toNat
          (fun (i : Nat) => rowOf ((i : Nat) : Int) (zigzagPattern r x.length 0 1) x)
          [] (by omega)
        simp only [fenceRows]
        rw [hgd]
        simp only [Int.toNat_of_nonneg hqm.1]
  · intro hdeg
    constructor
    · rw [railFenceEncode, if_pos hdeg]
    · rw [railFenceDecode, if_pos hdeg]



theorem sliceRows_getD_length :
    ∀ (counts : List Nat) (cipher : List Char), counts.sum ≤ cipher.length →
      ∀ i < counts.length, ((sliceRows cipher counts).getD i []).length = counts.getD i 0 := by
  intro counts
  induction counts with
  | nil => intro cipher _ i hi; simp at hi
  | cons k ks ih =>
    intro cipher hsum i hi
    cases i with
    | zero =>
      simp only [sliceRows, List.getD_cons_zero, List.length_take]
      simp only [List.sum_cons] at hsum
      omega
    | succ j =>
      simp only [sliceRows, List.getD_cons_succ]
      apply ih (cipher.drop k) _ j (by simpa using hi)
      simp only [List.sum_cons] at hsum
      simp only [List.length_drop]
      omega

theorem decodeGo_length :
    ∀ (p : List Int) (rows : List (List Char)),
      (∀ r ∈ p, 0 ≤ r ∧ r.toNat < rows.length) →
      (∀ r ∈ p, p.count r ≤ (rows.getD r.toNat []).length) →
      (decodeGo rows p).length = p.length := by
  intro p
  induction p with
  | nil => intro rows _ _; rfl
  | cons r ps ih =>
    intro rows hmem hcount
    have hr := hmem r (by simp)
    have hcr := hcount r (by simp)
    have hpos : 1 ≤ (rows.getD r.toNat []).length := by
      have : 1 ≤ (r :: ps).count r := by simp [List.count_cons]
      omega
    obtain ⟨c, cs, hcc⟩ : ∃ c cs, rows.getD r.toNat [] = c :: cs := by
      match hh : rows.getD r.toNat [] with
      | [] => rw [hh] at hpos; simp at hpos
      | a :: as => exact ⟨a, as, rfl⟩
    have hstep : decodeGo rows (r :: ps) =
        c :: decodeGo (rows.set r.toNat cs) ps := by
      simp only [decodeGo, hcc]
    rw [hstep, List.length_cons]
    congr 1
    apply ih (rows.set r.toNat cs)
    · intro q hq
      have := hmem q (by simp [hq])
      simpa using this
    · intro q hq
      have hq2 := hmem q (by simp [hq])
      by_cases hqr : q = r
      · subst hqr
        rw [getD_set_self _ _ _ _ hr.2]
        have hcnt : (q :: ps).count q = ps.count q + 1 := by
          simp [List.count_cons]
        have := hcount q (by simp)
        rw [hcc] at this
        simp only [List.length_cons] at this
        omega
      · have hne : r.toNat ≠ q.toNat := by omega
        rw [getD_set_ne _ _ _ _ _ hne]
        have hcnt : (r :: ps).count q = ps.count q := by
          rw [List.count_cons]
          simp only [beq_iff_eq]
          rw [if_neg (fun hh : r = q => hqr hh.symm)]
          omega
        have := hcount q (by simp [hq])
        omega

theorem railFenceDecode_length (cipher : List Char) (rails : Int) :
    (railFenceDecode cipher rails).length = cipher.length := by
  by_cases hdeg : rails ≤ 1 ∨ cipher.length ≤ 1
  · rw [railFenceDecode, if_pos hdeg]
  · push_neg at hdeg
    have h2 : 2 ≤ rails := by omega
    rw [railFenceDecode, if_neg (by omega : ¬(rails ≤ 1 ∨ cipher.length ≤ 1))]
    have hpatlen : (zigzagPattern rails cipher.length 0 1).length = cipher.length :=
      zigzagPattern_length rails cipher.length 0 1
    have hmem : ∀ q ∈ zigzagPattern rails cipher.length 0 1, 0 ≤ q ∧ q < rails :=
      zigzagPattern_mem rails h2 cipher.length 0 1 (by omega) (by omega) (Or.inl rfl)
    have hsum : ((List.range rails.toNat).map
        (fun (i : Nat) => (zigzagPattern rails cipher.length 0 1).count ((i : Nat) : Int))).sum =
        cipher.length := by
      rw [sum_counts_range]
      · exact hpatlen
      · intro q hq
        have := hmem q hq
        omega
    simp only []
    rw [decodeGo_length]
    · exact hpatlen
    · intro q hq
      have hqm := hmem q hq
      refine ⟨hqm.1, ?_⟩
      rw [sliceRows_length]
      simp only [List.length_map, List.length_range]
      omega
    · intro q hq
      have hqm := hmem q hq
      have hlt : q.toNat < ((List.range rails.toNat).map
          (fun (i : Nat) => (zigzagPattern rails cipher.length 0 1).count ((i : Nat) : Int))).length := by
        simp only [List.length_map, List.length_range]
        omega
      rw [sliceRows_getD_length _ cipher (by omega) q.toNat hlt]
      have hgd := getD_range_map rails.toNat q.toNat
        (fun (i : Nat) => (zigzagPattern rails cipher.length 0 1).count ((i : Nat) : Int))
        0 (by omega)
      rw [hgd]
      simp only [Int.toNat_of_nonneg hqm.1]
      exact le_refl _



theorem caesarCipher_length (text : List Char) (s : Nat) (pc : Bool) :
    (caesarCipher text s pc).length = text.length := by
  simp [caesarCipher]

theorem vigenereGo_length (ko : List Nat) (mode : String) (pc : Bool) :
    ∀ (x : List Char) (ki : Nat), (vigenereGo ko mode pc ki x).length = x.length := by
  intro x
  induction x with
  | nil => intro ki; rfl
  | cons c cs ih =>
    intro ki
    by_cases hc : jsLowerCode c < 97 ∨ 122 < jsLowerCode c
    · simp only [vigenereGo, if_pos hc, List.length_cons, ih]
    · simp only [vigenereGo, if_neg hc, List.length_cons, ih]

theorem vigenereCipher_length (text key : List Char) (mode : String) (pc : Bool) :
    (vigenereCipher text key mode pc).length = text.length := by
  rw [vigenereCipher]
  split
  · rfl
  · exact vigenereGo_length _ _ _ text 0

/-- C10: Caesar, ROT13, Reverse, Vigenere and Rail-Fence steps preserve
the length of the text for every input and every parameter value the
evaluator can see (`clampRails` output included). -/
theorem claim_C10 (text : List Char) (step : Step)
    (h : step.type ∈ (["caesar", "rot13", "reverse", "vigenere", "rail-fence"] : List String)) :
    (applyStep text step).length = text.length := by
  simp only [List.mem_cons, List.not_mem_nil, or_false] at h
  rcases h with h | h | h | h | h
  · rw [applyStep, if_pos h]
    exact caesarCipher_length _ _ _
  · rw [applyStep]
    rw [if_neg (by rw [h]; decide), if_neg (by rw [h]; decide), if_neg (by rw [h]; decide),
      if_neg (by rw [h]; decide), if_pos h]
    exact caesarCipher_length _ _ _
  · rw [applyStep]
    rw [if_neg (by rw [h]; decide), if_pos h]
    simp [reverseText]
  · rw [applyStep]
    rw [if_neg (by rw [h]; decide), if_neg (by rw [h]; decide), if_neg (by rw [h]; decide),
      if_neg (by rw [h]; decide), if_neg (by rw [h]; decide), if_neg (by rw [h]; decide),
      if_pos h]
    exact vigenereCipher_length _ _ _ _
  · rw [applyStep]
    rw [if_neg (by rw [h]; decide), if_neg (by rw [h]; decide), if_neg (by rw [h]; decide),
      if_neg (by rw [h]; decide), if_neg (by rw [h]; decide), if_neg (by rw [h]; decide),
      if_neg (by rw [h]; decide), if_pos h]
    split
    · exact railFenceDecode_length _ _
    · exact railFenceEncode_length _ _


/-- C3 counterexample: the claim ranges over every text, but on the
string `"\u{1F600}a"` (code units `[55357, 56832, 97]`) with 2 rails the
source program returns `[55357, 97, 56832]`: the encoder placed the
surrogate pair on one rail as a unit while the decoder sliced by single
code units, so the round trip rearranges the surrogate halves. -/
theorem claim_C3_counterexample :
    railFenceDecode16 (railFenceEncode16 [55357, 56832, 97] 2) 2 ≠ [55357, 56832, 97] := by
  decide

/-- C3 witness (the spec's own rail-fence scenario). -/
theorem claim_C3_witness :
    railFenceDecode (railFenceEncode "WEAREDISCOVEREDFLEEATONCE".toList 3) 3 =
      "WEAREDISCOVEREDFLEEATONCE".toList :=
  (claim_C3 3 "WEAREDISCOVEREDFLEEATONCE".toList (by decide)).1 (by norm_num) (by norm_num)

/-- C10 witness. -/
theorem claim_C10_witness :
    (applyStep "ab!".toList
      ⟨"rail-fence", "encode", 3, true, [], none, true, "upper", [], some 2⟩).length =
      "ab!".toList.length :=
  claim_C10 "ab!".toList _ (by decide)

/-! The Replace step (claims C4 and C7). -/

theorem expandRepl_no_dollar (t : List Char) (hnd : Char.ofNat 36 ∉ t) :
    ∀ pre m post : List Char, expandRepl t pre m post = t := by
  induction t with
  | nil => intro pre m post; rfl
  | cons c rest ih =>
    intro pre m post
    have hc : ¬(c = Char.ofNat 36) := fun h => hnd (by simp [h])
    have hrest : Char.ofNat 36 ∉ rest := fun h => hnd (by simp [h])
    cases rest with
    | nil => simp [expandRepl, if_neg hc]
    | cons d rest2 =>
      simp only [expandRepl, if_neg hc]
      rw [ih hrest]

theorem replaceGo_expand (mc : Bool) (f t : List Char) (hnd : Char.ofNat 36 ∉ t) :
    ∀ (n : Nat) (l : List Char), l.length ≤ n → ∀ done : List Char,
      replaceGo mc f (fun pre m post => expandRepl t pre m post) done l =
        replaceLiteralGo mc f t l := by
  intro n
  induction n with
  | zero =>
    intro l hl done
    have : l = [] := List.eq_nil_of_length_eq_zero (Nat.le_zero.mp hl)
    subst this
    rw [replaceGo, replaceLiteralGo]
  | succ k ih =>
    intro l hl done
    match l with
    | [] => rw [replaceGo, replaceLiteralGo]
    | c :: rest =>
      by_cases hm : f ≠ [] ∧ literalMatch mc f (c :: rest) = true
      · rw [replaceGo, replaceLiteralGo]
        rw [dif_pos hm, dif_pos hm]
        rw [expandRepl_no_dollar t hnd]
        congr 1
        apply ih
        simp only [List.length_drop, List.length_cons] at *
        have : f.length ≠ 0 := fun hn => hm.1 (List.eq_nil_of_length_eq_zero hn)
        omega
      · rw [replaceGo, replaceLiteralGo]
        rw [dif_neg hm, dif_neg hm]
        congr 1
        apply ih
        simp only [List.length_cons] at hl
        omega



theorem literalMatch_self_append (f : List Char) :
    ∀ l : List Char, literalMatch true f l = true → f ++ l.drop f.length = l := by
  induction f with
  | nil => intro l _; simp
  | cons a as ih =>
    intro l hm
    match l with
    | [] => simp [literalMatch] at hm
    | b :: bs =>
      simp only [literalMatch, charMatches, ite_true, Bool.and_eq_true,
        decide_eq_true_eq] at hm
      obtain ⟨hab, hrest⟩ := hm
      subst hab
      simp only [List.cons_append, List.length_cons, List.drop_succ_cons]
      rw [ih bs hrest]

theorem replaceLiteralGo_self (f : List Char) :
    ∀ (n : Nat) (l : List Char), l.length ≤ n → replaceLiteralGo true f f l = l := by
  intro n
  induction n with
  | zero =>
    intro l hl
    have : l = [] := List.eq_nil_of_length_eq_zero (Nat.le_zero.mp hl)
    subst this
    rw [replaceLiteralGo]
  | succ k ih =>
    intro l hl
    match l with
    | [] => rw [replaceLiteralGo]
    | c :: rest =>
      by_cases hm : f ≠ [] ∧ literalMatch true f (c :: rest) = true
      · rw [replaceLiteralGo, dif_pos hm]
        have hspl := literalMatch_self_append f (c :: rest) hm.2
        have hlen : f.length ≠ 0 := fun hn => hm.1 (List.eq_nil_of_length_eq_zero hn)
        rw [ih ((c :: rest).drop f.length)
          (by simp only [List.length_drop, List.length_cons] at *; omega)]
        exact hspl
      · rw [replaceLiteralGo, dif_neg hm]
        rw [ih rest (by simp only [List.length_cons] at hl; omega)]

/-- C7: Replace with `fromText = toText` returns the text unchanged —
amended: this holds when `matchCase` is true and the text contains no
dollar sign; with `matchCase` false a case-variant occurrence is
rewritten to the exact `fromText` casing, and a `$` in `toText` is an
escape sequence for the JavaScript replacement string, so either relaxation
breaks idempotence. -/
theorem claim_C7 (x f : List Char) (matchCase : Bool) (hmc : matchCase = true)
    (hnd : Char.ofNat 36 ∉ f) :
    replaceText x f (some f) matchCase = x := by
  subst hmc
  rw [replaceText]
  by_cases hf : f = []
  · rw [if_pos hf]
  · rw [if_neg hf]
    have h1 := replaceGo_expand true f f hnd x.length x (le_refl _) []
    simp only [Option.getD_some] at h1 ⊢
    rw [h1]
    exact replaceLiteralGo_self f x.length x (le_refl _)

/-- C7 counterexample: with `matchCase` false, replacing `a` by `a` in
`"A"` yields `"a"`; and replacing `"$$"` by `"$$"` in `"$$"` yields `"$"`
because `$$` in a JavaScript replacement string is an escaped dollar. -/
theorem claim_C7_counterexample :
    (replaceText ['A'] ['a'] (some ['a']) false ≠ ['A']) ∧
      (replaceText [Char.ofNat 36, Char.ofNat 36] [Char.ofNat 36, Char.ofNat 36]
        (some [Char.ofNat 36, Char.ofNat 36]) true ≠ [Char.ofNat 36, Char.ofNat 36]) := by
  constructor
  · simp [replaceText, replaceGo, expandRepl, literalMatch, charMatches, foldCaseChar]
  · simp [replaceText, replaceGo, expandRepl, literalMatch, charMatches]

/-- C7 witness. -/
theorem claim_C7_witness :
    replaceText "aXa".toList "a".toList (some "a".toList) true = "aXa".toList :=
  claim_C7 "aXa".toList "a".toList true rfl (by decide)

/-- C4: Replace is literal, non-regex replacement of every occurrence of
`fromText` (case-sensitive iff `matchCase`; regex metacharacters in
`fromText` are escaped and hence literal), empty `fromText` returns the
input unchanged and an absent `toText` is the empty string — amended:
`toText` is inserted verbatim only when it contains no dollar sign,
because the source passes it as a JavaScript replacement string, where
`$$`, `$&`, `` $` `` and `$'` are escape sequences. -/
theorem claim_C4 (text fromText toText : List Char) (matchCase : Bool) :
    (Char.ofNat 36 ∉ toText →
      replaceText text fromText (some toText) matchCase =
        replaceTextSpec text fromText toText matchCase) ∧
    replaceText text [] (some toText) matchCase = text ∧
    replaceText text fromText none matchCase =
      replaceText text fromText (some []) matchCase := by
  refine ⟨fun hnd => ?_, by rw [replaceText, if_pos rfl], rfl⟩
  rw [replaceText, replaceTextSpec]
  by_cases hf : fromText = []
  · rw [if_pos hf, if_pos hf]
  · rw [if_neg hf, if_neg hf]
    have h1 := replaceGo_expand matchCase fromText toText hnd text.length text (le_refl _) []
    simpa using h1

/-- C4 counterexample: replacing `a` by the text `"$$"` in `"a"` yields
`"$"`, not the literal `"$$"` the claim promises. -/
theorem claim_C4_counterexample :
    replaceText ['a'] ['a'] (some [Char.ofNat 36, Char.ofNat 36]) true ≠
      replaceTextSpec ['a'] ['a'] [Char.ofNat 36, Char.ofNat 36] true := by
  simp [replaceText, replaceTextSpec, replaceGo, replaceLiteralGo, expandRepl,
    literalMatch, charMatches]

/-- C4 witness. -/
theorem claim_C4_witness :
    replaceText "hello world".toList "world".toList (some "there".toList) true =
      replaceTextSpec "hello world".toList "world".toList "there".toList true :=
  (claim_C4 "hello world".toList "world".toList "there".toList true).1 (by decide)


/-! The A1Z26 step (claim C5). -/


theorem isJsWs_iff (c : Char) : isJsWs c = true ↔
    (9 ≤ c.toNat ∧ c.toNat ≤ 13) ∨ c.toNat = 32 ∨ c.toNat = 160 ∨ c.toNat = 5760 ∨
    (8192 ≤ c.toNat ∧ c.toNat ≤ 8202) ∨ c.toNat = 8232 ∨ c.toNat = 8233 ∨
    c.toNat = 8239 ∨ c.toNat = 8287 ∨ c.toNat = 12288 ∨ c.toNat = 65279 := by
  simp [isJsWs, Bool.or_eq_true, Bool.and_eq_true, decide_eq_true_eq, beq_iff_eq]
  omega

theorem ws_not_letter (c : Char) (h : isJsWs c = true) :
    ¬(97 ≤ jsLowerCode c ∧ jsLowerCode c ≤ 122) := by
  rw [isJsWs_iff] at h
  simp only [jsLowerCode]
  split_ifs <;> omega

theorem decimalOf_digits (k : Nat) (h1 : 1 ≤ k) (h2 : k ≤ 26) :
    ∀ c ∈ decimalOf k, 48 ≤ c.toNat ∧ c.toNat ≤ 57 := by
  intro c hc
  rw [decimalOf] at hc
  split_ifs at hc with hk
  · simp only [List.mem_singleton] at hc
    subst hc
    rw [toNat_ofNat_lt _ (by omega)]
    omega
  · simp only [List.mem_cons, List.mem_singleton, List.not_mem_nil, or_false] at hc
    have hdiv : k / 10 ≤ 2 := by omega
    have hdiv1 : 1 ≤ k / 10 := by omega
    have hmod : k % 10 ≤ 9 := by omega
    rcases hc with rfl | rfl
    · rw [toNat_ofNat_lt _ (by omega)]
      omega
    · rw [toNat_ofNat_lt _ (by omega)]
      omega

theorem digit_not_ws (c : Char) (h : 48 ≤ c.toNat ∧ c.toNat ≤ 57) :
    isJsWs c = false := by
  rcases hb : isJsWs c with _ | _
  · rfl
  · exfalso
    rw [isJsWs_iff] at hb
    omega

theorem a1z26Piece_letter (c : Char) (h : 97 ≤ jsLowerCode c ∧ jsLowerCode c ≤ 122) :
    a1z26Piece c = decimalOf (jsLowerCode c - 96) := by
  rw [a1z26Piece]
  rw [if_neg (by omega)]

theorem a1z26Piece_nonletter (c : Char) (h : ¬(97 ≤ jsLowerCode c ∧ jsLowerCode c ≤ 122)) :
    a1z26Piece c = [c] := by
  rw [a1z26Piece]
  rw [if_pos (by omega)]

theorem a1z26Piece_nonws (c : Char) (hws : isJsWs c = false) :
    ∀ a ∈ a1z26Piece c, isJsWs a = false := by
  intro a ha
  by_cases h : 97 ≤ jsLowerCode c ∧ jsLowerCode c ≤ 122
  · rw [a1z26Piece_letter c h] at ha
    exact digit_not_ws a (decimalOf_digits (jsLowerCode c - 96) (by omega) (by omega) a ha)
  · rw [a1z26Piece_nonletter c h] at ha
    simp only [List.mem_singleton] at ha
    subst ha
    exact hws

theorem a1z26Piece_ne_nil (c : Char) : a1z26Piece c ≠ [] := by
  by_cases h : 97 ≤ jsLowerCode c ∧ jsLowerCode c ≤ 122
  · rw [a1z26Piece_letter c h, decimalOf]
    split_ifs <;> simp
  · rw [a1z26Piece_nonletter c h]
    simp



theorem collapseWs_cons_nonws (h : Char) (t : List Char) (hh : isJsWs h = false) :
    collapseWs (h :: t) = h :: collapseWs t := by
  rw [collapseWs]
  rw [if_neg (by simp [hh])]

theorem collapseWs_cons_space (t : List Char) :
    collapseWs (' ' :: t) = ' ' :: collapseWs (t.dropWhile isJsWs) := by
  rw [collapseWs]
  rw [if_pos (by decide)]
  split_ifs <;> rfl

theorem collapseWs_nonws_append (p r : List Char) (hp : ∀ a ∈ p, isJsWs a = false) :
    collapseWs (p ++ r) = p ++ collapseWs r := by
  induction p with
  | nil => rfl
  | cons h t ih =>
    simp only [List.cons_append]
    rw [collapseWs_cons_nonws h _ (hp h (by simp))]
    rw [ih (fun a ha => hp a (by simp [ha]))]



theorem unitOf_eq_piece (c : Char) (h : isJsWs c = false) :
    unitOf c = some (a1z26Piece c) := by
  by_cases hl : 97 ≤ jsLowerCode c ∧ jsLowerCode c ≤ 122
  · rw [unitOf, if_pos hl, a1z26Piece_letter c hl]
  · rw [unitOf, if_neg hl, if_neg (by simp [h]), a1z26Piece_nonletter c hl]

theorem unitOf_ws (c : Char) (h : isJsWs c = true) : unitOf c = none := by
  rw [unitOf, if_neg (ws_not_letter c h), if_pos h]

theorem units_dropWhile (x : List Char) :
    units (x.dropWhile isJsWs) = units x := by
  induction x with
  | nil => rfl
  | cons c x' ih =>
    rcases hc : isJsWs c with _ | _
    · rw [List.dropWhile_cons_of_neg (by simp [hc])]
    · rw [List.dropWhile_cons_of_pos (by simp [hc])]
      rw [ih]
      simp only [units, List.filterMap_cons, unitOf_ws c hc]

theorem dropWhile_joinSp_pieces (x : List Char) :
    (joinSp (x.map a1z26Piece)).dropWhile isJsWs =
      joinSp ((x.dropWhile isJsWs).map a1z26Piece) := by
  induction x with
  | nil => rfl
  | cons c x' ih =>
    rcases hc : isJsWs c with _ | _
    · rw [List.dropWhile_cons_of_neg (by simp [hc])]
      obtain ⟨hp, tp, hsplit⟩ : ∃ hp tp, a1z26Piece c = hp :: tp := by
        match hpp : a1z26Piece c with
        | [] => exact absurd hpp (a1z26Piece_ne_nil c)
        | a :: b => exact ⟨a, b, rfl⟩
      have hhp : isJsWs hp = false :=
        a1z26Piece_nonws c hc hp (by rw [hsplit]; simp)
      match x' with
      | [] =>
        simp only [List.map_cons, List.map_nil, joinSp, hsplit]
        rw [List.dropWhile_cons_of_neg (by simp [hhp])]
      | d :: x'' =>
        simp only [List.map_cons, joinSp, hsplit]
        rw [List.cons_append, List.dropWhile_cons_of_neg (by simp [hhp])]
    · rw [List.dropWhile_cons_of_pos (by simp [hc])]
      rw [← ih]
      have hp := a1z26Piece_nonletter c (ws_not_letter c hc)
      match x' with
      | [] =>
        simp only [List.map_cons, List.map_nil, joinSp, hp]
        rw [List.dropWhile_cons_of_pos (by simp [hc])]
      | d :: x'' =>
        simp only [List.map_cons, joinSp, hp]
        rw [List.cons_append, List.dropWhile_cons_of_pos (by simp [hc]),
          List.nil_append, List.dropWhile_cons_of_pos (by decide)]



theorem dropWhile_all_nonws (p : List Char) (hp : ∀ a ∈ p, isJsWs a = false) :
    p.dropWhile isJsWs = p := by
  match p with
  | [] => rfl
  | a :: t => rw [List.dropWhile_cons_of_neg (by simp [hp a (by simp)])]

theorem jsTrim_cons_ws (a : Char) (l : List Char) (ha : isJsWs a = true) :
    jsTrim (a :: l) = jsTrim l := by
  rw [jsTrim, jsTrim, List.dropWhile_cons_of_pos (by simp [ha])]

theorem jsTrim_all_nonws (p : List Char) (hp : ∀ a ∈ p, isJsWs a = false) :
    jsTrim p = p := by
  rw [jsTrim, dropWhile_all_nonws p hp,
    dropWhile_all_nonws p.reverse (fun a ha => hp a (List.mem_reverse.mp ha)),
    List.reverse_reverse]

theorem dropWhile_append_of_ne_nil {p : Char → Bool} :
    ∀ (l1 l2 : List Char), l1.dropWhile p ≠ [] →
      (l1 ++ l2).dropWhile p = l1.dropWhile p ++ l2 := by
  intro l1
  induction l1 with
  | nil => intro l2 h; simp at h
  | cons a t ih =>
    intro l2 h
    rcases ha : p a with _ | _
    · rw [List.cons_append, List.dropWhile_cons_of_neg (by simp [ha]),
        List.dropWhile_cons_of_neg (by simp [ha])]
      rfl
    · rw [List.dropWhile_cons_of_pos (by simp [ha])] at h
      rw [List.cons_append, List.dropWhile_cons_of_pos (by simp [ha]),
        List.dropWhile_cons_of_pos (by simp [ha])]
      exact ih l2 h

theorem jsTrim_append_trailing_space (p : List Char) (hp : ∀ a ∈ p, isJsWs a = false) :
    jsTrim (p ++ [' ']) = p := by
  match p with
  | [] => rfl
  | b :: q =>
    have hb : isJsWs b = false := hp b (by simp)
    have h1 : ((b :: q) ++ [' ']).dropWhile isJsWs = (b :: q) ++ [' '] := by
      rw [List.cons_append, List.dropWhile_cons_of_neg (by simp [hb])]
    rw [jsTrim, h1]
    have h2 : ((b :: q) ++ [' ']).reverse = ' ' :: (b :: q).reverse := by
      simp
    rw [h2, List.dropWhile_cons_of_pos (by decide)]
    rw [dropWhile_all_nonws _ (fun a ha => hp a (List.mem_reverse.mp ha)),
      List.reverse_reverse]

theorem jsTrim_append_mid_space (p z : List Char) (hpne : p ≠ [])
    (hp : ∀ a ∈ p, isJsWs a = false)
    (hzhead : z.dropWhile isJsWs = z) (hztrim : jsTrim z ≠ []) :
    jsTrim (p ++ ' ' :: z) = p ++ ' ' :: jsTrim z := by
  have hzrev : z.reverse.dropWhile isJsWs ≠ [] := by
    intro hcon
    apply hztrim
    rw [jsTrim, hzhead, hcon]
    rfl
  have hdrop1 : (p ++ ' ' :: z).dropWhile isJsWs = p ++ ' ' :: z := by
    match p, hpne with
    | b :: q, _ =>
      rw [List.cons_append, List.dropWhile_cons_of_neg (by simp [hp b (by simp)])]
  rw [jsTrim, hdrop1]
  rw [List.reverse_append, List.reverse_cons, List.append_assoc]
  rw [dropWhile_append_of_ne_nil z.reverse ([' '] ++ p.reverse) hzrev]
  rw [jsTrim, hzhead]
  simp [List.reverse_append, List.append_assoc]



theorem collapseWs_nil : collapseWs [] = [] := by
  rw [collapseWs]

theorem collapseWs_singleton_ws (c : Char) (hc : isJsWs c = true) :
    collapseWs [c] = [c] := by
  rw [collapseWs]
  rw [if_pos (by simp [hc])]
  simp [collapseWs_nil]

theorem collapseWs_ws_space (c : Char) (t : List Char) (hc : isJsWs c = true) :
    collapseWs (c :: ' ' :: t) = ' ' :: collapseWs (t.dropWhile isJsWs) := by
  rw [collapseWs]
  rw [if_pos (by simp [hc])]
  rw [List.takeWhile_cons_of_pos (by decide), List.dropWhile_cons_of_pos (by decide)]
  simp

theorem dropWhile_head_neg {p : Char → Bool} :
    ∀ (l : List Char) (a : Char) (t : List Char), l.dropWhile p = a :: t → p a = false := by
  intro l
  induction l with
  | nil => intro a t h; simp at h
  | cons b bs ih =>
    intro a t h
    rcases hb : p b with _ | _
    · rw [List.dropWhile_cons_of_neg (by simp [hb])] at h
      cases h
      exact hb
    · rw [List.dropWhile_cons_of_pos (by simp [hb])] at h
      exact ih a t h

theorem joinSp_cons_ne_nil (u : List Char) (us : List (List Char)) (h : us ≠ []) :
    joinSp (u :: us) = u ++ ' ' :: joinSp us := by
  match us, h with
  | e :: t, _ => rfl

theorem joinSp_ne_nil (u : List Char) (us : List (List Char)) (hu : u ≠ []) :
    joinSp (u :: us) ≠ [] := by
  match us with
  | [] => exact hu
  | e :: t =>
    rw [joinSp_cons_ne_nil u (e :: t) (by simp)]
    simp [hu]

theorem units_cons_nonws (c : Char) (x' : List Char) (hc : isJsWs c = false) :
    units (c :: x') = a1z26Piece c :: units x' := by
  simp [units, List.filterMap_cons, unitOf_eq_piece c hc]

theorem units_cons_ws (c : Char) (x' : List Char) (hc : isJsWs c = true) :
    units (c :: x') = units x' := by
  simp [units, List.filterMap_cons, unitOf_ws c hc]

theorem collapseWs_J_head_fix (e : Char) (xrest : List Char) (he : isJsWs e = false) :
    (collapseWs (joinSp ((e :: xrest).map a1z26Piece))).dropWhile isJsWs =
      collapseWs (joinSp ((e :: xrest).map a1z26Piece)) := by
  obtain ⟨hp, tp, hsplit⟩ : ∃ hp tp, a1z26Piece e = hp :: tp := by
    match hpp : a1z26Piece e with
    | [] => exact absurd hpp (a1z26Piece_ne_nil e)
    | a :: b => exact ⟨a, b, rfl⟩
  have hhp : isJsWs hp = false := a1z26Piece_nonws e he hp (by rw [hsplit]; simp)
  match xrest with
  | [] =>
    simp only [List.map_cons, List.map_nil, joinSp, hsplit]
    rw [collapseWs_cons_nonws hp tp hhp]
    rw [List.dropWhile_cons_of_neg (by simp [hhp])]
  | d :: x'' =>
    simp only [List.map_cons, joinSp, hsplit, List.cons_append]
    rw [collapseWs_cons_nonws hp _ hhp]
    rw [List.dropWhile_cons_of_neg (by simp [hhp])]

theorem encode_norm :
    ∀ (n : Nat) (x : List Char), x.length ≤ n →
      jsTrim (collapseWs (joinSp (x.map a1z26Piece))) = joinSp (units x) := by
  intro n
  induction n with
  | zero =>
    intro x hx
    have hxnil : x = [] := List.eq_nil_of_length_eq_zero (Nat.le_zero.mp hx)
    subst hxnil
    simp only [List.map_nil, joinSp]
    rw [collapseWs_nil]
    rfl
  | succ k ih =>
    intro x hx
    match x with
    | [] =>
      simp only [List.map_nil, joinSp]
      rw [collapseWs_nil]
      rfl
    | c :: x' =>
      rcases hc : isJsWs c with _ | _
      · -- the head character survives as a unit of its own
        have hunits := units_cons_nonws c x' hc
        have hnonws := a1z26Piece_nonws c hc
        have h1 : collapseWs (a1z26Piece c) = a1z26Piece c := by
          have h2 := collapseWs_nonws_append (a1z26Piece c) [] hnonws
          simpa [collapseWs_nil] using h2
        match x' with
        | [] =>
          have hL : joinSp ((c :: ([] : List Char)).map a1z26Piece) = a1z26Piece c := rfl
          rw [hL, h1, jsTrim_all_nonws _ hnonws, hunits]
          rfl
        | d :: x'' =>
          have hJ : joinSp ((c :: d :: x'').map a1z26Piece) =
              a1z26Piece c ++ ' ' :: joinSp ((d :: x'').map a1z26Piece) := by
            simp only [List.map_cons]
            rfl
          rw [hJ, collapseWs_nonws_append _ _ hnonws, collapseWs_cons_space,
            dropWhile_joinSp_pieces]
          have hlenxa : ((d :: x'').dropWhile isJsWs).length ≤ k := by
            have hle := (List.dropWhile_sublist (l := d :: x'') (p := isJsWs)).length_le
            simp only [List.length_cons] at hle hx ⊢
            omega
          have hux : units (d :: x'') = units ((d :: x'').dropWhile isJsWs) :=
            (units_dropWhile (d :: x'')).symm
          cases hxae : (d :: x'').dropWhile isJsWs with
          | nil =>
            simp only [List.map_nil, joinSp]
            rw [collapseWs_nil, jsTrim_append_trailing_space _ hnonws]
            rw [hunits, hux, hxae]
            rfl
          | cons e xrest =>
            rw [hxae] at hlenxa
            have he : isJsWs e = false := dropWhile_head_neg (d :: x'') e xrest hxae
            have hIH := ih (e :: xrest) hlenxa
            have hune : units (e :: xrest) = a1z26Piece e :: units xrest :=
              units_cons_nonws e xrest he
            have htne : jsTrim (collapseWs (joinSp ((e :: xrest).map a1z26Piece))) ≠ [] := by
              rw [hIH, hune]
              exact joinSp_ne_nil _ _ (a1z26Piece_ne_nil e)
            rw [jsTrim_append_mid_space (a1z26Piece c) _
              (a1z26Piece_ne_nil c) hnonws (collapseWs_J_head_fix e xrest he) htne]
            rw [hIH, hunits, hux, hxae]
            rw [joinSp_cons_ne_nil _ _ (by rw [hune]; simp)]
      · -- the head character is whitespace and is absorbed
        have hunits := units_cons_ws c x' hc
        have hpc : a1z26Piece c = [c] := a1z26Piece_nonletter c (ws_not_letter c hc)
        match x' with
        | [] =>
          have hL : joinSp ((c :: ([] : List Char)).map a1z26Piece) = [c] := by
            rw [show (c :: ([] : List Char)).map a1z26Piece = [a1z26Piece c] from rfl, hpc]
            rfl
          rw [hL, collapseWs_singleton_ws c hc, jsTrim_cons_ws c [] hc]
          rw [hunits]
          rfl
        | d :: x'' =>
          have hJ : joinSp ((c :: d :: x'').map a1z26Piece) =
              c :: ' ' :: joinSp ((d :: x'').map a1z26Piece) := by
            simp only [List.map_cons, hpc]
            rfl
          rw [hJ, collapseWs_ws_space c _ hc, dropWhile_joinSp_pieces,
            jsTrim_cons_ws _ _ (by decide)]
          have hlenxa : ((d :: x'').dropWhile isJsWs).length ≤ k := by
            have hle := (List.dropWhile_sublist (l := d :: x'') (p := isJsWs)).length_le
            simp only [List.length_cons] at hle hx ⊢
            omega
          rw [ih _ hlenxa, units_dropWhile, hunits]





theorem isWordCharJs_iff (c : Char) : isWordCharJs c = true ↔
    (48 ≤ c.toNat ∧ c.toNat ≤ 57) ∨ (65 ≤ c.toNat ∧ c.toNat ≤ 90) ∨
    (97 ≤ c.toNat ∧ c.toNat ≤ 122) ∨ c.toNat = 95 := by
  simp [isWordCharJs, Bool.or_eq_true, Bool.and_eq_true, decide_eq_true_eq, beq_iff_eq]
  omega

theorem boundaryAfter_space (t : List Char) : boundaryAfter (' ' :: t) = true := by
  rw [boundaryAfter]
  decide

theorem decode_space_step (w : Bool) (l : List Char) :
    a1z26DecodeGo w (' ' :: l) = ' ' :: a1z26DecodeGo false l := by
  have hns : ¬(w = false ∧ 49 ≤ (' ' : Char).toNat ∧ (' ' : Char).toNat ≤ 57 ∧
      boundaryAfter l) := by
    rintro ⟨-, h, -⟩
    revert h
    decide
  match l with
  | [] =>
    conv_lhs => rw [a1z26DecodeGo]
    rw [if_neg hns]
    rfl
  | d :: rest2 =>
    conv_lhs => rw [a1z26DecodeGo]
    rw [if_neg hns,
      if_neg (by rintro ⟨-, h, -⟩; revert h; decide),
      if_neg (by rintro ⟨-, h, -⟩; revert h; decide)]
    rw [show isWordCharJs ' ' = false from by decide]

theorem decode_single_nil (c : Char) (hd : ¬(48 ≤ c.toNat ∧ c.toNat ≤ 57)) :
    a1z26DecodeGo false [c] = [c] := by
  rw [a1z26DecodeGo, if_neg (by rintro ⟨-, h1, h2, -⟩; omega)]

theorem decode_single_space (c : Char) (hd : ¬(48 ≤ c.toNat ∧ c.toNat ≤ 57))
    (t' : List Char) :
    a1z26DecodeGo false (c :: ' ' :: t') = c :: ' ' :: a1z26DecodeGo false t' := by
  rw [a1z26DecodeGo, if_neg (by rintro ⟨-, h1, h2, -⟩; omega),
    if_neg (by rintro ⟨-, h, -⟩; omega),
    if_neg (by rintro ⟨-, h, -⟩; omega)]
  rw [decode_space_step]



theorem toNat_digit_char (n : Nat) (h1 : 48 ≤ n) (h2 : n ≤ 57) :
    (Char.ofNat n).toNat = n :=
  toNat_ofNat_lt n (by omega)

theorem isWordCharJs_digit (n : Nat) (h1 : 48 ≤ n) (h2 : n ≤ 57) :
    isWordCharJs (Char.ofNat n) = true := by
  rw [isWordCharJs_iff, toNat_digit_char n h1 h2]
  omega

theorem boundaryAfter_digit_cons (n : Nat) (h1 : 48 ≤ n) (h2 : n ≤ 57) (t : List Char) :
    boundaryAfter (Char.ofNat n :: t) = false := by
  rw [boundaryAfter, isWordCharJs_digit n h1 h2]
  rfl

theorem decode_token_nil (v : Nat) (h1 : 1 ≤ v) (h2 : v ≤ 26) :
    a1z26DecodeGo false (decimalOf v) = [Char.ofNat (96 + v)] := by
  rw [decimalOf]
  by_cases hv : v < 10
  · rw [if_pos hv]
    conv_lhs => rw [a1z26DecodeGo]
    rw [if_pos ⟨rfl, by rw [toNat_digit_char _ (by omega) (by omega)]; omega,
      by rw [toNat_digit_char _ (by omega) (by omega)]; omega, rfl⟩]
    have : (Char.ofNat (48 + v)).toNat - 48 = v := by
      rw [toNat_digit_char _ (by omega) (by omega)]
      omega
    rw [this]
    rfl
  · rw [if_neg hv]
    have hd10 : v / 10 = 1 ∨ v / 10 = 2 := by omega
    have hc1 : (Char.ofNat (48 + v / 10)).toNat = 48 + v / 10 :=
      toNat_digit_char _ (by omega) (by omega)
    have hc2 : (Char.ofNat (48 + v % 10)).toNat = 48 + v % 10 :=
      toNat_digit_char _ (by omega) (by omega)
    conv_lhs => rw [a1z26DecodeGo]
    rw [if_neg (by
      rintro ⟨-, -, -, hB⟩
      rw [boundaryAfter_digit_cons _ (by omega) (by omega)] at hB
      exact Bool.false_ne_true hB)]
    rcases hd10 with hd | hd
    · rw [if_pos ⟨rfl, by rw [hc1]; omega, by rw [hc2]; omega, by rw [hc2]; omega, rfl⟩]
      have : 10 + ((Char.ofNat (48 + v % 10)).toNat - 48) = v := by
        rw [hc2]
        omega
      rw [this]
      rfl
    · rw [if_neg (by rintro ⟨-, hcc, -⟩; rw [hc1] at hcc; omega)]
      rw [if_pos ⟨rfl, by rw [hc1]; omega, by rw [hc2]; omega, by rw [hc2]; omega, rfl⟩]
      have : 20 + ((Char.ofNat (48 + v % 10)).toNat - 48) = v := by
        rw [hc2]
        omega
      rw [this]
      rfl

theorem decode_token_space (v : Nat) (h1 : 1 ≤ v) (h2 : v ≤ 26) (t' : List Char) :
    a1z26DecodeGo false (decimalOf v ++ ' ' :: t') =
      Char.ofNat (96 + v) :: ' ' :: a1z26DecodeGo false t' := by
  rw [decimalOf]
  by_cases hv : v < 10
  · rw [if_pos hv]
    rw [List.singleton_append]
    conv_lhs => rw [a1z26DecodeGo]
    rw [if_pos ⟨rfl, by rw [toNat_digit_char _ (by omega) (by omega)]; omega,
      by rw [toNat_digit_char _ (by omega) (by omega)]; omega, boundaryAfter_space t'⟩]
    have : (Char.ofNat (48 + v)).toNat - 48 = v := by
      rw [toNat_digit_char _ (by omega) (by omega)]
      omega
    rw [this, decode_space_step]
  · rw [if_neg hv]
    have hd10 : v / 10 = 1 ∨ v / 10 = 2 := by omega
    have hc1 : (Char.ofNat (48 + v / 10)).toNat = 48 + v / 10 :=
      toNat_digit_char _ (by omega) (by omega)
    have hc2 : (Char.ofNat (48 + v % 10)).toNat = 48 + v % 10 :=
      toNat_digit_char _ (by omega) (by omega)
    rw [List.cons_append, List.singleton_append]
    conv_lhs => rw [a1z26DecodeGo]
    rw [if_neg (by
      rintro ⟨-, -, -, hB⟩
      rw [boundaryAfter_digit_cons _ (by omega) (by omega)] at hB
      exact Bool.false_ne_true hB)]
    rcases hd10 with hd | hd
    · rw [if_pos ⟨rfl, by rw [hc1]; omega, by rw [hc2]; omega, by rw [hc2]; omega,
        boundaryAfter_space t'⟩]
      have : 10 + ((Char.ofNat (48 + v % 10)).toNat - 48) = v := by
        rw [hc2]
        omega
      rw [this, decode_space_step]
    · rw [if_neg (by rintro ⟨-, hcc, -⟩; rw [hc1] at hcc; omega)]
      rw [if_pos ⟨rfl, by rw [hc1]; omega, by rw [hc2]; omega, by rw [hc2]; omega,
        boundaryAfter_space t'⟩]
      have : 20 + ((Char.ofNat (48 + v % 10)).toNat - 48) = v := by
        rw [hc2]
        omega
      rw [this, decode_space_step]




theorem isAsciiLetterB_iff (c : Char) : isAsciiLetterB c = true ↔
    (65 ≤ c.toNat ∧ c.toNat ≤ 90) ∨ (97 ≤ c.toNat ∧ c.toNat ≤ 122) := by
  simp [isAsciiLetterB, Bool.or_eq_true, Bool.and_eq_true, decide_eq_true_eq]

theorem decodeUnit_token (v : Nat) (h1 : 1 ≤ v) (h2 : v ≤ 26) :
    decodeUnit (decimalOf v) = [Char.ofNat (96 + v)] := by
  rw [decimalOf]
  by_cases hv : v < 10
  · rw [if_pos hv]
    simp only [decodeUnit]
    rw [if_pos (by rw [toNat_digit_char _ (by omega) (by omega)]; omega)]
    rw [show (Char.ofNat (48 + v)).toNat - 48 = v from by
      rw [toNat_digit_char _ (by omega) (by omega)]; omega]
  · rw [if_neg hv]
    have hd10 : v / 10 = 1 ∨ v / 10 = 2 := by omega
    have hc1 : (Char.ofNat (48 + v / 10)).toNat = 48 + v / 10 :=
      toNat_digit_char _ (by omega) (by omega)
    have hc2 : (Char.ofNat (48 + v % 10)).toNat = 48 + v % 10 :=
      toNat_digit_char _ (by omega) (by omega)
    simp only [decodeUnit]
    rcases hd10 with hd | hd
    · rw [if_pos ⟨by rw [hc1]; omega, by rw [hc2]; omega, by rw [hc2]; omega⟩]
      rw [show 10 + ((Char.ofNat (48 + v % 10)).toNat - 48) = v from by rw [hc2]; omega]
    · rw [if_neg (by rintro ⟨hcc, -⟩; rw [hc1] at hcc; omega)]
      rw [if_pos ⟨by rw [hc1]; omega, by rw [hc2]; omega, by rw [hc2]; omega⟩]
      rw [show 20 + ((Char.ofNat (48 + v % 10)).toNat - 48) = v from by rw [hc2]; omega]

theorem decodeUnit_single (c : Char) (hd : ¬(48 ≤ c.toNat ∧ c.toNat ≤ 57)) :
    decodeUnit [c] = [c] := by
  simp only [decodeUnit]
  rw [if_neg (by omega)]

theorem decode_joinSp :
    ∀ us : List (List Char), (∀ u ∈ us, GoodUnit u) →
      a1z26DecodeGo false (joinSp us) = joinSp (us.map decodeUnit) := by
  intro us
  induction us with
  | nil => intro _; rfl
  | cons u us' ih =>
    intro h
    have hu := h u (by simp)
    have hus' : ∀ w ∈ us', GoodUnit w := fun w hw => h w (by simp [hw])
    match us' with
    | [] =>
      rcases hu with ⟨v, h1, h2, rfl⟩ | ⟨c, rfl, hd⟩
      · rw [show joinSp [decimalOf v] = decimalOf v from rfl, decode_token_nil v h1 h2,
          List.map_cons, List.map_nil, decodeUnit_token v h1 h2]
        rfl
      · rw [show joinSp [[c]] = [c] from rfl, decode_single_nil c hd,
          List.map_cons, List.map_nil, decodeUnit_single c hd]
        rfl
    | u2 :: rest =>
      rw [joinSp_cons_ne_nil u (u2 :: rest) (by simp)]
      rcases hu with ⟨v, h1, h2, rfl⟩ | ⟨c, rfl, hd⟩
      · conv_rhs => rw [List.map_cons, decodeUnit_token v h1 h2,
          joinSp_cons_ne_nil _ _ (by simp)]
        rw [decode_token_space v h1 h2 _, ih hus']
        rfl
      · conv_rhs => rw [List.map_cons, decodeUnit_single c hd,
          joinSp_cons_ne_nil _ _ (by simp)]
        rw [List.singleton_append, decode_single_space c hd, ih hus']
        rfl

theorem units_good (x : List Char)
    (hdig : ∀ c ∈ x, ¬(48 ≤ c.toNat ∧ c.toNat ≤ 57)) :
    ∀ u ∈ units x, GoodUnit u := by
  intro u hu
  simp only [units, List.mem_filterMap] at hu
  obtain ⟨c, hc, hcu⟩ := hu
  rw [unitOf] at hcu
  split_ifs at hcu with hl hw
  · left
    exact ⟨jsLowerCode c - 96, by omega, by omega, (Option.some_inj.mp hcu).symm⟩
  · right
    exact ⟨c, (Option.some_inj.mp hcu).symm, hdig c hc⟩

theorem filter_joinSp (us : List (List Char)) :
    (joinSp us).filter isAsciiLetterB =
      (us.map (List.filter isAsciiLetterB)).flatten := by
  induction us with
  | nil => rfl
  | cons u us' ih =>
    match us' with
    | [] => simp [joinSp]
    | u2 :: rest =>
      rw [joinSp_cons_ne_nil u (u2 :: rest) (by simp), List.filter_append,
        List.filter_cons_of_neg (by decide), ih]
      simp



theorem asciiLowerChar_eq_ofNat (c : Char)
    (h : 65 ≤ c.toNat ∧ c.toNat ≤ 90 ∨ 97 ≤ c.toNat ∧ c.toNat ≤ 122) :
    asciiLowerChar c = Char.ofNat (jsLowerCode c) := by
  rcases h with h | h
  · rw [asciiLowerChar, if_pos h, jsLowerCode_of_upper c h.1 h.2]
  · rw [asciiLowerChar, if_neg (by omega), jsLowerCode_of_lower c h.1 h.2,
      Char.ofNat_toNat]

theorem decoded_letters (x : List Char)
    (hdig : ∀ c ∈ x, ¬(48 ≤ c.toNat ∧ c.toNat ≤ 57))
    (hspec : ∀ c ∈ x, c.toNat ≠ 8490 ∧ c.toNat ≠ 304) :
    (((units x).map decodeUnit).map (List.filter isAsciiLetterB)).flatten =
      (x.filter isAsciiLetterB).map asciiLowerChar := by
  induction x with
  | nil => rfl
  | cons c x' ih =>
    have hdig' : ∀ a ∈ x', ¬(48 ≤ a.toNat ∧ a.toNat ≤ 57) :=
      fun a ha => hdig a (by simp [ha])
    have hspec' : ∀ a ∈ x', a.toNat ≠ 8490 ∧ a.toNat ≠ 304 :=
      fun a ha => hspec a (by simp [ha])
    have hcd := hdig c (by simp)
    have hcs := hspec c (by simp)
    by_cases hl : 97 ≤ jsLowerCode c ∧ jsLowerCode c ≤ 122
    · have hcw : isJsWs c = false := by
        rcases hw : isJsWs c with _ | _
        · rfl
        · exact absurd hl (ws_not_letter c hw)
      have hletter := letter_cases c hl.1 hl.2 hcs.1 hcs.2
      have hunits : units (c :: x') = decimalOf (jsLowerCode c - 96) :: units x' := by
        rw [units_cons_nonws c x' hcw, a1z26Piece_letter c hl]
      rw [hunits, List.map_cons, decodeUnit_token _ (by omega) (by omega), List.map_cons]
      have hofc : 96 + (jsLowerCode c - 96) = jsLowerCode c := by omega
      rw [hofc]
      have hletterB : isAsciiLetterB (Char.ofNat (jsLowerCode c)) = true := by
        rw [isAsciiLetterB_iff, toNat_ofNat_lt _ (by omega)]
        omega
      rw [show List.filter isAsciiLetterB [Char.ofNat (jsLowerCode c)] =
        [Char.ofNat (jsLowerCode c)] from by rw [List.filter_cons_of_pos hletterB]; rfl]
      rw [List.flatten_cons, ih hdig' hspec']
      rw [List.filter_cons_of_pos (by rw [isAsciiLetterB_iff]; omega)]
      rw [List.map_cons, asciiLowerChar_eq_ofNat c hletter]
      rfl
    · rcases hw : isJsWs c with _ | _
      · -- a surviving non-letter character
        have hunits : units (c :: x') = [c] :: units x' := by
          rw [units_cons_nonws c x' hw, a1z26Piece_nonletter c hl]
        have hnotletter : isAsciiLetterB c = false := by
          rcases hb : isAsciiLetterB c with _ | _
          · rfl
          · exfalso
            rw [isAsciiLetterB_iff] at hb
            have := ascii_letter_jsLowerCode c hb
            omega
        rw [hunits, List.map_cons, decodeUnit_single c hcd, List.map_cons,
          List.flatten_cons]
        rw [List.filter_cons_of_neg (by simp [hnotletter])]
        simp only [List.filter_nil, List.nil_append]
        rw [List.filter_cons_of_neg (by simp [hnotletter])]
        exact ih hdig' hspec'
      · -- whitespace is dropped on both sides
        have hnotletter : isAsciiLetterB c = false := by
          rcases hb : isAsciiLetterB c with _ | _
          · rfl
          · exfalso
            rw [isAsciiLetterB_iff] at hb
            have := ascii_letter_jsLowerCode c hb
            omega
        rw [units_cons_ws c x' hw, List.filter_cons_of_neg (by simp [hnotletter])]
        exact ih hdig' hspec'

/-- C5: decoding an encoded text reproduces the letter sequence of the
text, case-folded to lowercase, with non-letters dropped — amended: the
text may contain no ASCII digit (a digit passes through the encoder
unchanged and the decoder then turns it into a letter) and neither
U+212A nor U+0130 (which the encoder consumes as letters although they
are not ASCII letters). -/
theorem claim_C5 (x : List Char)
    (hdig : ∀ c ∈ x, ¬(48 ≤ c.toNat ∧ c.toNat ≤ 57))
    (hspec : ∀ c ∈ x, c.toNat ≠ 8490 ∧ c.toNat ≠ 304) :
    (a1z26Decode (a1z26Encode x)).filter isAsciiLetterB =
      (x.filter isAsciiLetterB).map asciiLowerChar := by
  have henc : a1z26Encode x = joinSp (units x) :=
    encode_norm x.length x (le_refl _)
  rw [a1z26Decode, henc, decode_joinSp (units x) (units_good x hdig),
    filter_joinSp]
  exact decoded_letters x hdig hspec

/-- C5 counterexample: for the text `"5"` the encoder emits `"5"` and
the decoder turns it into `"e"`, so the decoded output contains a letter
although the input had none. -/
theorem claim_C5_counterexample :
    (a1z26Decode (a1z26Encode ['5'])).filter isAsciiLetterB ≠
      (List.filter isAsciiLetterB ['5']).map asciiLowerChar := by
  simp [a1z26Encode, a1z26Decode, a1z26DecodeGo, collapseWs, joinSp, jsTrim, a1z26Piece,
    jsLowerCode, decimalOf, isJsWs, boundaryAfter, isWordCharJs, isAsciiLetterB]

/-- C5 witness. -/
theorem claim_C5_witness :
    (a1z26Decode (a1z26Encode "Hello, World!".toList)).filter isAsciiLetterB =
      ("Hello, World!".toList.filter isAsciiLetterB).map asciiLowerChar :=
  claim_C5 "Hello, World!".toList (by decide) (by decide)


end Sezor
